import Mathlib

/-!
Verification of the retrieval-and-orchestration engine of the chatR repository.

The Python sources `chatr/rag/retriever.py` and `chatr/rag/orchestrator.py` are
shallowly embedded below.  External collaborators (the `rank_bm25` scoring
library, the sentence-transformers embedding model, the ChromaDB vector index,
the Ollama language-model client and the JSON parser of the standard library)
are modelled as opaque function parameters, exactly as the specification's §6
treats them.  Machine reals (Python floats) are modelled by ℚ; Python's
unordered `set` iteration and numpy's unstable `argsort` tie order are given a
fixed deterministic stand-in, noted at each definition.
-/

/-! ### Python string primitives -/

/-- Python's `pat in s` substring test, on character lists. -/
def containsSub (pat : List Char) : List Char → Bool
  | [] => pat.isEmpty
  | c :: rest => pat.isPrefixOf (c :: rest) || containsSub pat rest

/-- Python's `pat in s` on strings. -/
def strContains (pat s : String) : Bool :=
  containsSub pat.data s.data

/-- First index at which `pat` occurs in `s` (Python `str.find`, `none` for -1). -/
def findSub? (pat : List Char) : List Char → Option Nat
  | [] => if pat.isEmpty then some 0 else none
  | c :: rest =>
    if pat.isPrefixOf (c :: rest) then some 0
    else (findSub? pat rest).map (· + 1)

/-- The whitespace characters Python's `str.strip` and `str.split` use. -/
def isPySpace (c : Char) : Bool :=
  c == ' ' || c == '\t' || c == '\n' || c == '\x0b' || c == '\x0c' || c == '\r'

/-- Python `s.strip()`. -/
def pyStrip (s : List Char) : List Char :=
  ((s.dropWhile isPySpace).reverse.dropWhile isPySpace).reverse

/-- Python `s.split(c)` for a single-character separator: always at least one
piece, empty pieces kept. -/
def splitOnChar (c : Char) : List Char → List (List Char)
  | [] => [[]]
  | x :: xs =>
    match splitOnChar c xs with
    | [] => [[x]]
    | h :: t => if x == c then [] :: h :: t else (x :: h) :: t

/-- Helper of `pySplitWs`: walk the characters keeping the (reversed) current
token. -/
def splitWsAux : List Char → List Char → List String
  | [], acc => if acc.isEmpty then [] else [String.mk acc.reverse]
  | c :: rest, acc =>
    if isPySpace c then
      (if acc.isEmpty then [] else [String.mk acc.reverse]) ++ splitWsAux rest []
    else splitWsAux rest (c :: acc)

/-- Python `s.split()` with no argument: split on whitespace runs, no empty
pieces.  Used to tokenize documents and queries. -/
def pySplitWs (s : String) : List String :=
  splitWsAux s.data []

/-- Python `s.lower()` (the sources only lowercase ASCII text). -/
def pyLower (s : String) : String :=
  String.mk (s.data.map Char.toLower)

/-! ### Stable sorting on score-keyed pairs

Python's `list.sort` / `sorted` are stable; both are modelled by a stable
insertion sort.  `sortDesc` sorts pairs by their second (score) component in
descending order keeping the original order of equal scores, exactly like
`sorted(items, key=lambda x: x[1], reverse=True)`. -/

/-- Insert `x` into a descending-sorted list, after all strictly larger scores
and before equal ones (stability for an element that came earlier). -/
def insertDesc {α : Type} (x : α × ℚ) : List (α × ℚ) → List (α × ℚ)
  | [] => [x]
  | y :: ys => if x.2 < y.2 then y :: insertDesc x ys else x :: y :: ys

/-- Stable descending sort by score. -/
def sortDesc {α : Type} : List (α × ℚ) → List (α × ℚ)
  | [] => []
  | x :: xs => insertDesc x (sortDesc xs)

/-- Insert `x` into an ascending-sorted list (used for numpy's `argsort`). -/
def insertAsc {α : Type} (x : α × ℚ) : List (α × ℚ) → List (α × ℚ)
  | [] => [x]
  | y :: ys => if y.2 ≤ x.2 then y :: insertAsc x ys else x :: y :: ys

/-- Ascending sort by score (deterministic stand-in for `np.argsort`, whose
tie order is unspecified). -/
def sortAsc {α : Type} : List (α × ℚ) → List (α × ℚ)
  | [] => []
  | x :: xs => insertAsc x (sortAsc xs)

/-! ### Python dictionaries as association lists

A Python `dict` keeps first-insertion key order and last-written values. -/

/-- `d[k] = v` on an association list built from `[]` by `dictUpd` only:
replace the value at the first occurrence of `k`, else append. -/
def dictUpd {β : Type} : List (String × β) → String → β → List (String × β)
  | [], k, v => [(k, v)]
  | p :: rest, k, v => if p.1 = k then (k, v) :: rest else p :: dictUpd rest k v

/-- Build a Python dict from a pair list (`dict(pairs)`, or a fill loop). -/
def dictFrom {β : Type} (l : List (String × β)) : List (String × β) :=
  l.foldl (fun d p => dictUpd d p.1 p.2) []

/-- `d.get(k)` on an association list. -/
def alookup {β : Type} (l : List (String × β)) (k : String) : Option β :=
  (l.find? (fun p => decide (p.1 = k))).map (·.2)

/-! ### Data model (`chatr/rag/retriever.py`) -/

/-- A document in the retrieval system.  The loosely typed metadata map is
modelled as a string-to-string association list (spec §3 / design note §9). -/
structure Document where
  content : String
  metadata : List (String × String)
  id : String
deriving DecidableEq

/-- `{doc.id: doc for doc in documents}[i]`: the most recently added document
bearing id `i` (a later duplicate overwrites an earlier one). -/
def lastDoc (documents : List Document) (i : String) : Option Document :=
  documents.reverse.find? (fun d => decide (d.id = i))

/-- Python `metadata.get(k, dflt)`. -/
def mdGetD (md : List (String × String)) (k dflt : String) : String :=
  (alookup md k).getD dflt

/-- The `HybridRetriever` object state.  `bm25` holds the `get_scores` closure
of the external `rank_bm25.BM25Okapi` index (`none` before any build);
`embedding_model` is `none` when no sentence-transformers model loaded;
`chroma_query` is the composite of query embedding plus ChromaDB
`collection.query`, returning ranked `(id, distance)` pairs. -/
structure HybridRetriever where
  documents : List Document
  bm25 : Option (List String → List ℚ)
  embedding_model : Option Unit
  chroma_query : String → Nat → List (String × ℚ)

/-! ### Retrieval (`HybridRetriever.retrieve` and helpers) -/

/-- `_bm25_retrieve`: score every corpus document, take the `top_k` indices by
descending score (`np.argsort(scores)[::-1][:top_k]`) paired with scores. -/
def bm25_retrieve (f : List String → List ℚ) (query : String) (top_k : Nat) :
    List (Nat × ℚ) :=
  let scores := f (pySplitWs query)
  ((sortAsc scores.enum).reverse).take top_k

/-- `_dense_retrieve`: ChromaDB nearest neighbours with each distance `d`
converted to the similarity `1 / (1 + d)`. -/
def dense_retrieve (chroma_query : String → Nat → List (String × ℚ))
    (query : String) (top_k : Nat) : List (String × ℚ) :=
  (chroma_query query top_k).map (fun p => (p.1, 1 / (1 + p.2)))

/-- Score normalization of one pass inside `_hybrid_rerank`: an empty pass is
kept, otherwise each score is divided by the pass's maximum when that maximum
is positive and replaced by 0 otherwise. -/
def maxScore {α : Type} : List (α × ℚ) → ℚ
  | [] => 0
  | [p] => p.2
  | p :: q :: rest => max p.2 (maxScore (q :: rest))

/-- `[(k, score / mx if mx > 0 else 0) for k, score in results]` guarded by
`if results:`. -/
def normalizePass {α : Type} (l : List (α × ℚ)) : List (α × ℚ) :=
  match l with
  | [] => []
  | _ =>
    let m := maxScore l
    l.map (fun p => (p.1, if 0 < m then p.2 / m else 0))

/-- The union of the ids of the two passes, lexical ids first (a deterministic
stand-in for Python's unordered `set(a) | set(b)` iteration order). -/
def unionIds (ls vs : List String) : List String :=
  ls ++ vs.filter (fun v => !(ls.contains v))

/-- `_hybrid_rerank`: normalize both passes, map BM25 corpus indices to
document ids, fuse over the union of ids with missing scores as 0, sort by
combined score descending, truncate to `top_k` and resolve ids to documents
(ids absent from the corpus are silently dropped).  The iteration order of the
Python id set is modelled deterministically: BM25 keys first, then new dense
keys. -/
def hybrid_rerank (documents : List Document) (bm25_results : List (Nat × ℚ))
    (dense_results : List (String × ℚ)) (top_k : Nat) (bm25_weight : ℚ) :
    List (Document × ℚ) :=
  let bm25n := normalizePass bm25_results
  let densen := normalizePass dense_results
  let bm25_scores := dictFrom (bm25n.filterMap
    (fun p => (documents.get? p.1).map (fun d => (d.id, p.2))))
  let dense_scores := dictFrom densen
  let all_doc_ids := unionIds (bm25_scores.map (·.1)) (dense_scores.map (·.1))
  let combined := all_doc_ids.map (fun i =>
    (i, bm25_weight * (alookup bm25_scores i).getD 0 +
        (1 - bm25_weight) * (alookup dense_scores i).getD 0))
  ((sortDesc combined).take top_k).filterMap
    (fun p => (lastDoc documents p.1).map (fun d => (d, p.2)))

/-- `retrieve`: empty result when either index is uninitialized, otherwise the
hybrid fusion of the two passes over `2·top_k` candidates each. -/
def retrieve (st : HybridRetriever) (query : String) (top_k : Nat)
    (bm25_weight : ℚ) : List (Document × ℚ) :=
  match st.bm25, st.embedding_model with
  | some f, some _ =>
    hybrid_rerank st.documents (bm25_retrieve f query (top_k * 2))
      (dense_retrieve st.chroma_query query (top_k * 2)) top_k bm25_weight
  | _, _ => []

/-- `add_documents`: extend the corpus, rebuild the BM25 index over the whole
tokenized corpus (the external `BM25Okapi` constructor is the parameter
`mkBm25`), then add the batch to the vector database.  When no embedding model
is loaded, `_add_to_vector_db` raises `ValueError` — at that point the Python
object is already left with the extended corpus and rebuilt BM25 index, which
is the state returned here (the vector side untouched). -/
def add_documents (mkBm25 : List (List String) → List String → List ℚ)
    (chromaAdd : (String → Nat → List (String × ℚ)) → List Document →
      String → Nat → List (String × ℚ))
    (st : HybridRetriever) (docs : List Document) : HybridRetriever :=
  let documents' := st.documents ++ docs
  let tokenized := documents'.map (fun d => pySplitWs d.content)
  let st1 : HybridRetriever :=
    { st with documents := documents', bm25 := some (mkBm25 tokenized) }
  match st.embedding_model with
  | none => st1
  | some _ => { st1 with chroma_query := chromaAdd st.chroma_query docs }

/-! ### Query decomposition (`chatr/rag/orchestrator.py`, `QueryDecomposer`) -/

/-- A decomposed sub-question: `{"question", "type", "priority"}`.  The
information type is a free string in the source (`package`, `function`,
`concept`, `example`, `general`). -/
structure SubQuestion where
  question : String
  qtype : String
  priority : Int
deriving DecidableEq

/-- Stable ascending insertion by priority, mirroring Python's stable
`list.sort(key=lambda x: x.get('priority', 3))`. -/
def insertByPriority (x : SubQuestion) : List SubQuestion → List SubQuestion
  | [] => [x]
  | y :: ys => if y.priority < x.priority then y :: insertByPriority x ys
               else x :: y :: ys

/-- Stable ascending sort by priority. -/
def sortByPriority : List SubQuestion → List SubQuestion
  | [] => []
  | x :: xs => insertByPriority x (sortByPriority xs)

/-- `_fallback_decomposition`: rule-based keyword matching, with a single
`general` sub-question equal to the query when no rule matches. -/
def fallback_decomposition (user_query : String) : List SubQuestion :=
  let ql := pyLower user_query
  let s1 : List SubQuestion :=
    if strContains "linear regression" ql || strContains "lm(" ql then
      [⟨"How to perform linear regression in R?", "function", 1⟩,
       ⟨"What packages are needed for linear regression?", "package", 2⟩,
       ⟨"How to check linear regression assumptions?", "concept", 2⟩]
    else []
  let s2 : List SubQuestion :=
    if strContains "plot" ql || strContains "visualization" ql then
      [⟨"How to create plots in R?", "function", 1⟩,
       ⟨"What visualization packages are available?", "package", 2⟩]
    else []
  let s3 : List SubQuestion :=
    if strContains "data" ql &&
       (strContains "import" ql || strContains "read" ql || strContains "load" ql) then
      [⟨"How to read data in R?", "function", 1⟩,
       ⟨"What data import packages are available?", "package", 2⟩]
    else []
  let subs := s1 ++ s2 ++ s3
  if subs.isEmpty then [⟨user_query, "general", 1⟩] else subs

/-- The slice `response[response.find('['):response.rfind(']') + 1]`.  When
`']'` is absent, `rfind` gives -1 so the stop position is 0 and the slice is
empty; the surrounding condition `end_idx != -1` is then still true (0 ≠ -1),
so this slice is what gets parsed. -/
def jsonSpan (r : String) : String :=
  let cs := r.data
  let start := (cs.findIdx? (fun c => c == '[')).getD 0
  let stop := match cs.reverse.findIdx? (fun c => c == ']') with
    | none => 0
    | some ridx => cs.length - ridx
  ⟨(cs.drop start).take (stop - start)⟩

/-- `decompose_query`.  The language-model call is the `llm_response`
parameter (`Except.error` = the call raised / model unavailable); JSON parsing
plus the duck-typed list-of-dicts shape check is the opaque `parseJson`
parameter (`none` = `json.loads` raised or the sort over dicts raised, both
caught by the enclosing `except` and sent to the fallback).  A successfully
parsed list is sorted by priority and returned as-is. -/
def decompose_query (llm_response : Except Unit String)
    (parseJson : String → Option (List SubQuestion))
    (user_query : String) : List SubQuestion :=
  match llm_response with
  | .error _ => fallback_decomposition user_query
  | .ok response =>
    if response.data.contains '[' then
      match parseJson (jsonSpan response) with
      | some subs => sortByPriority subs
      | none => fallback_decomposition user_query
    else fallback_decomposition user_query

/-! ### Multi-hop retrieval (`MultiHopRetriever`) -/

/-- `_enhance_query_with_context`: append a parenthetical hint built from the
last 3 context tags that are relevant to the sub-question's type. -/
def enhance_query_with_context (question : String) (context : List String)
    (question_type : String) : String :=
  if context.isEmpty then question
  else
    let lastThree := context.drop (context.length - 3)
    let relevant := lastThree.filter (fun c =>
      if question_type = "package" then
        strContains "package" (pyLower c) || strContains "library" (pyLower c)
      else if question_type = "function" then
        strContains "function" (pyLower c) || strContains "method" (pyLower c)
      else decide (question_type = "concept"))
    if relevant.isEmpty then question
    else question ++ " (considering: " ++ String.intercalate ", " relevant ++ ")"

/-- The additive type/task bonus of `_targeted_retrieve` for one candidate. -/
def typeBonus (question_type doc_type doc_task : String) : ℚ :=
  let tb : ℚ :=
    if question_type = "package" &&
       (doc_type = "package_description" || doc_type = "task_view") then 0.2
    else if question_type = "function" &&
       (doc_type = "man_page" || doc_type = "function") then 0.2
    else if question_type = "concept" &&
       (doc_type = "vignette" || doc_type = "r_extensions") then 0.15
    else if question_type = "example" &&
       (doc_type = "vignette" || doc_type = "man_page") then 0.1
    else 0
  tb + (if (question_type = "function" || question_type = "concept") &&
           (doc_task = "statistical_modeling" || doc_task = "data_visualization")
        then 0.1 else 0)

/-- `_targeted_retrieve`: fetch `2·max_docs` candidates from the hybrid
retriever (the bound `self.retriever.retrieve` with its default
`bm25_weight=0.3` is the opaque `retr`), add the type bonus, re-sort
descending (stable) and truncate. -/
def targeted_retrieve (retr : String → Nat → List (Document × ℚ))
    (query : String) (question_type : String) (max_docs : Nat) :
    List (Document × ℚ) :=
  let results := retr query (max_docs * 2)
  let filtered_results := results.map (fun p =>
    (p.1, p.2 + typeBonus question_type (mdGetD p.1.metadata "type" "")
                          (mdGetD p.1.metadata "task" "")))
  (sortDesc filtered_results).take max_docs

/-- The context tags one result contributes in `_extract_context_info`: a
`package:`, `function:` and `task:` tag for each of those metadata keys
present, in that order. -/
def docTags (d : Document) : List String :=
  (match alookup d.metadata "package" with
   | some v => ["package:" ++ v]
   | none => []) ++
  (match alookup d.metadata "function" with
   | some v => ["function:" ++ v]
   | none => []) ++
  (match alookup d.metadata "task" with
   | some v => ["task:" ++ v]
   | none => [])

/-- `_extract_context_info`: the tags of the top 2 results. -/
def extract_context_info (results : List (Document × ℚ)) : List String :=
  (results.take 2).flatMap (fun p => docTags p.1)

/-- The loop body sequence of `multi_hop_retrieve`: process sub-questions in
the order given, accumulating the results dict (`retrieval_results`) and the
running context (`context_from_previous`). -/
def multiHopGo (retr : String → Nat → List (Document × ℚ)) (max_docs : Nat) :
    List SubQuestion → List (String × List (Document × ℚ)) → List String →
    List (String × List (Document × ℚ))
  | [], acc, _ => acc
  | sq :: rest, acc, ctx =>
    let enhanced := enhance_query_with_context sq.question ctx sq.qtype
    let results := targeted_retrieve retr enhanced sq.qtype max_docs
    let acc' := dictUpd acc sq.question results
    let ctx' := if results.isEmpty then ctx else ctx ++ extract_context_info results
    multiHopGo retr max_docs rest acc' ctx'

/-- `multi_hop_retrieve`: the result dict maps each sub-question's text to its
hop's results, in insertion (= processing) order. -/
def multi_hop_retrieve (retr : String → Nat → List (Document × ℚ))
    (sub_questions : List SubQuestion) (max_docs_per_question : Nat) :
    List (String × List (Document × ℚ)) :=
  multiHopGo retr max_docs_per_question sub_questions [] []

/-- The hop sequence without the dict bookkeeping, starting from a given
running context: used to state how `multi_hop_retrieve` decomposes. -/
def multiHopFrom (retr : String → Nat → List (Document × ℚ)) (max_docs : Nat)
    (ctx : List String) : List SubQuestion → List (String × List (Document × ℚ))
  | [] => []
  | sq :: rest =>
    let enhanced := enhance_query_with_context sq.question ctx sq.qtype
    let results := targeted_retrieve retr enhanced sq.qtype max_docs
    let ctx' := if results.isEmpty then ctx else ctx ++ extract_context_info results
    (sq.question, results) :: multiHopFrom retr max_docs ctx' rest

/-- The running context accumulated after a sequence of hops. -/
def multiHopCtx (retr : String → Nat → List (Document × ℚ)) (max_docs : Nat)
    (ctx : List String) : List SubQuestion → List String
  | [] => ctx
  | sq :: rest =>
    let enhanced := enhance_query_with_context sq.question ctx sq.qtype
    let results := targeted_retrieve retr enhanced sq.qtype max_docs
    let ctx' := if results.isEmpty then ctx else ctx ++ extract_context_info results
    multiHopCtx retr max_docs ctx' rest

/-! ### Validation (`WorkflowOrchestrator._validate_workflow`) -/

/-- The deny-list scan of `_validate_code_block` (runs on the lowercased
block).  The uncommon-package advisory check comes first in the source and
returns its own note, preempting the deny-list message for such blocks. -/
def dangerScan (cl : String) : Option String :=
  if strContains "system(" cl then
    some "Contains potentially dangerous operation: system("
  else if strContains "unlink(" cl then
    some "Contains potentially dangerous operation: unlink("
  else if strContains "file.remove(" cl then
    some "Contains potentially dangerous operation: file.remove("
  else none

/-- `_validate_code_block`: returns the first applicable note, or `none`. -/
def validate_code_block (code : String) : Option String :=
  let cl := pyLower code
  if strContains "library(" cl && !(strContains "install.packages(" cl) then
    if strContains "obscurepackage" cl then
      some "Package \x27obscurepackage\x27 may not be widely available"
    else if strContains "rarepkg" cl then
      some "Package \x27rarepkg\x27 may not be widely available"
    else dangerScan cl
  else dangerScan cl

/-- `re.findall(r'```r\n(.*?)\n```', s, re.DOTALL)`: repeatedly take the text
between the next ` ```r `-newline opener and the earliest following
newline-` ``` ` closer.  Fuel-based recursion (`fuel ≥ length` suffices since
every step consumes at least the opener). -/
def extractAux (openPat closePat : List Char) : Nat → List Char → List String
  | 0, _ => []
  | fuel + 1, s =>
    match findSub? openPat s with
    | none => []
    | some i =>
      let rest := s.drop (i + openPat.length)
      match findSub? closePat rest with
      | none => []
      | some j =>
        String.mk (rest.take j) ::
          extractAux openPat closePat fuel (rest.drop (j + closePat.length))

/-- The R code blocks embedded in a response. -/
def extractRBlocks (s : String) : List String :=
  extractAux "```r\n".data "\n```".data (s.data.length + 1) s.data

/-- The number of lines `len(code_block.strip().split('\n'))` used by the
"very simple block" skip. -/
def numLines (code : String) : Nat :=
  (splitOnChar '\n' (pyStrip code.data)).length

/-- The notes collected by `_validate_workflow`: block numbering counts all
blocks, blocks of fewer than 2 stripped lines are skipped. -/
def validationNotes (blocks : List String) : List String :=
  blocks.enum.filterMap (fun p =>
    if numLines p.2 < 2 then none
    else (validate_code_block p.2).map
      (fun msg => "Code block " ++ toString (p.1 + 1) ++ ": " ++ msg))

/-- `_validate_workflow`: append a Validation Notes section when any note was
produced; the response itself is never altered. -/
def validate_workflow (workflow_response : String) : String :=
  let notes := validationNotes (extractRBlocks workflow_response)
  if notes.isEmpty then workflow_response
  else workflow_response ++ "\n\n**Validation Notes:**\n" ++
    String.intercalate "\n" notes

/-! ### The fusion pipeline as the specification words it (§4.2 steps 3–5)

`specFusion` is written from the spec's sentences: normalize each pass by its
own maximum, fuse `combined = w·lex + (1−w)·vec` over the union of ids with a
missing score taken as 0, sort descending, return the top `topK` as
`(Document, score)` pairs.  It is compared with `hybrid_rerank`, the
line-by-line embedding of the source. -/

/-- Normalized lexical scores keyed by document id (spec step 3 for the
lexical pass; an index outside the corpus has no id and is dropped). -/
def lexNorm (documents : List Document) (bm25_results : List (Nat × ℚ)) :
    List (String × ℚ) :=
  (normalizePass bm25_results).filterMap
    (fun p => (documents.get? p.1).map (fun d => (d.id, p.2)))

/-- Normalized vector scores keyed by document id (spec step 3, vector pass). -/
def vecNorm (dense_results : List (String × ℚ)) : List (String × ℚ) :=
  normalizePass dense_results

/-- Spec step 4: `combined = bm25Weight·lexicalScore + (1−bm25Weight)·vectorScore`,
a missing score treated as 0. -/
def specCombined (L V : List (String × ℚ)) (w : ℚ) (i : String) : ℚ :=
  w * ((alookup L i).getD 0) + (1 - w) * ((alookup V i).getD 0)

/-- Spec steps 3–5 as one function. -/
def specFusion (documents : List Document) (bm25_results : List (Nat × ℚ))
    (dense_results : List (String × ℚ)) (top_k : Nat) (w : ℚ) :
    List (Document × ℚ) :=
  let L := lexNorm documents bm25_results
  let V := vecNorm dense_results
  let U := unionIds (L.map (·.1)) (V.map (·.1))
  ((sortDesc (U.map (fun i => (i, specCombined L V w i)))).take top_k).filterMap
    (fun p => (lastDoc documents p.1).map (fun d => (d, p.2)))

/-- Pure-lexical results: the lexical pass alone — normalized scores, pass
order, top `top_k`, resolved to documents. -/
def pure_lexical_results (documents : List Document)
    (bm25_results : List (Nat × ℚ)) (top_k : Nat) : List (Document × ℚ) :=
  ((lexNorm documents bm25_results).take top_k).filterMap
    (fun p => (lastDoc documents p.1).map (fun d => (d, p.2)))

/-- Pure-vector results: the vector pass alone — normalized similarities,
pass order, top `top_k`, resolved to documents. -/
def pure_vector_results (documents : List Document)
    (dense_results : List (String × ℚ)) (top_k : Nat) :
    List (Document × ℚ) :=
  ((vecNorm dense_results).take top_k).filterMap
    (fun p => (lastDoc documents p.1).map (fun d => (d, p.2)))

/-! ### Lemmas about the stable sorts -/

theorem insertDesc_cons {α : Type} (x y : α × ℚ) (ys : List (α × ℚ)) :
    insertDesc x (y :: ys) =
      if x.2 < y.2 then y :: insertDesc x ys else x :: y :: ys := rfl

theorem insertDesc_perm {α : Type} (x : α × ℚ) (l : List (α × ℚ)) :
    (insertDesc x l).Perm (x :: l) := by
  induction l with
  | nil => simp [insertDesc]
  | cons y ys ih =>
    rw [insertDesc_cons]
    split
    · exact ((ih.cons y).trans (List.Perm.swap x y ys))
    · exact List.Perm.refl _

theorem sortDesc_perm {α : Type} (l : List (α × ℚ)) : (sortDesc l).Perm l := by
  induction l with
  | nil => exact List.Perm.refl _
  | cons x xs ih =>
    exact (insertDesc_perm x (sortDesc xs)).trans (ih.cons x)

theorem insertDesc_sorted {α : Type} (x : α × ℚ) (l : List (α × ℚ))
    (h : l.Pairwise (fun a b => b.2 ≤ a.2)) :
    (insertDesc x l).Pairwise (fun a b => b.2 ≤ a.2) := by
  induction l with
  | nil => simp [insertDesc]
  | cons y ys ih =>
    cases h with
    | cons hy hys =>
      rw [insertDesc_cons]
      split
      · rename_i hlt
        refine List.Pairwise.cons ?_ (ih hys)
        intro z hz
        rcases List.mem_cons.mp (((insertDesc_perm x ys).mem_iff).mp hz) with hz | hz
        · exact hz ▸ le_of_lt hlt
        · exact hy z hz
      · rename_i hge
        push_neg at hge
        refine List.Pairwise.cons ?_ (List.Pairwise.cons hy hys)
        intro z hz
        rcases List.mem_cons.mp hz with hz | hz
        · exact hz ▸ hge
        · exact le_trans (hy z hz) hge

theorem sortDesc_sorted {α : Type} (l : List (α × ℚ)) :
    (sortDesc l).Pairwise (fun a b => b.2 ≤ a.2) := by
  induction l with
  | nil => exact List.Pairwise.nil
  | cons x xs ih => exact insertDesc_sorted x (sortDesc xs) ih

theorem insertDesc_of_ge {α : Type} (x : α × ℚ) (l : List (α × ℚ))
    (h : ∀ y ∈ l, y.2 ≤ x.2) : insertDesc x l = x :: l := by
  cases l with
  | nil => rfl
  | cons y ys =>
    rw [insertDesc_cons, if_neg]
    exact not_lt.mpr (h y (List.mem_cons_self y ys))

theorem insertDesc_append {α : Type} (x : α × ℚ) (as bs : List (α × ℚ))
    (h : ∀ b ∈ bs, b.2 ≤ x.2) :
    insertDesc x (as ++ bs) = insertDesc x as ++ bs := by
  induction as with
  | nil => simpa using insertDesc_of_ge x bs h
  | cons a as ih =>
    rw [List.cons_append, insertDesc_cons, insertDesc_cons]
    split
    · rw [ih]; rfl
    · rfl

theorem sortDesc_eq_self {α : Type} (l : List (α × ℚ))
    (h : l.Pairwise (fun a b => b.2 ≤ a.2)) : sortDesc l = l := by
  induction l with
  | nil => rfl
  | cons x xs ih =>
    cases h with
    | cons hx hxs =>
      simp only [sortDesc]
      rw [ih hxs, insertDesc_of_ge]
      exact hx

theorem sortDesc_append {α : Type} (as bs : List (α × ℚ))
    (h : ∀ a ∈ as, ∀ b ∈ bs, b.2 ≤ a.2) :
    sortDesc (as ++ bs) = sortDesc as ++ sortDesc bs := by
  induction as with
  | nil => simp [sortDesc]
  | cons a as ih =>
    rw [List.cons_append]
    simp only [sortDesc]
    rw [ih (fun a ha b hb => h a (List.mem_cons_of_mem _ ha) b hb)]
    refine insertDesc_append a (sortDesc as) (sortDesc bs) ?_
    intro b hb
    exact h a (List.mem_cons_self a as) b ((sortDesc_perm bs).mem_iff.mp hb)

theorem filter_insertDesc {α : Type} (p : α × ℚ → Bool) (x : α × ℚ)
    (l : List (α × ℚ)) (h : l.Pairwise (fun a b => b.2 ≤ a.2)) :
    (insertDesc x l).filter p =
      if p x then insertDesc x (l.filter p) else l.filter p := by
  induction l with
  | nil => cases hpx : p x <;> simp [insertDesc, hpx]
  | cons y ys ih =>
    cases h with
    | cons hy hys =>
      rw [insertDesc_cons]
      split
      · rename_i hlt
        rw [List.filter_cons, List.filter_cons]
        cases hpy : p y with
        | true =>
          simp only [ih hys, if_pos rfl]
          cases hpx : p x with
          | true =>
            simp only [if_pos rfl, if_true]
            rw [insertDesc_cons, if_pos hlt]
          | false => simp
        | false => simpa using ih hys
      · rename_i hge
        push_neg at hge
        rw [List.filter_cons]
        cases hpx : p x with
        | true =>
          have hall : ∀ z ∈ List.filter p (y :: ys), z.2 ≤ x.2 := by
            intro z hz
            rcases List.mem_filter.mp hz with ⟨hz, _⟩
            rcases List.mem_cons.mp hz with hz | hz
            · exact hz ▸ hge
            · exact le_trans (hy z hz) hge
          simp only [hpx, if_true]
          rw [insertDesc_of_ge _ _ hall]
        | false => simp

theorem sortDesc_filter {α : Type} (p : α × ℚ → Bool) (l : List (α × ℚ)) :
    (sortDesc l).filter p = sortDesc (l.filter p) := by
  induction l with
  | nil => rfl
  | cons x xs ih =>
    simp only [sortDesc]
    rw [filter_insertDesc p x (sortDesc xs) (sortDesc_sorted xs), ih]
    rw [List.filter_cons]
    cases hpx : p x with
    | true => simp [sortDesc]
    | false => simp

theorem eq_of_sorted_strict_perm {α : Type} :
    ∀ (l₁ l₂ : List (α × ℚ)), l₁.Perm l₂ →
      l₁.Pairwise (fun a b => b.2 < a.2) →
      l₂.Pairwise (fun a b => b.2 < a.2) → l₁ = l₂
  | [], l₂, hp, _, _ => (hp.nil_eq).symm ▸ rfl
  | x :: xs, [], hp, _, _ => absurd hp (by simp [List.Perm])
  | x :: xs, y :: ys, hp, h₁, h₂ => by
    cases h₁ with
    | cons hx hxs =>
      cases h₂ with
      | cons hy hys =>
        have hxy : x = y := by
          by_contra hne
          have hxm : x ∈ y :: ys := hp.mem_iff.mp (List.mem_cons_self x xs)
          have hym : y ∈ x :: xs := hp.mem_iff.mpr (List.mem_cons_self y ys)
          rcases List.mem_cons.mp hxm with h | h
          · exact hne h
          · rcases List.mem_cons.mp hym with h' | h'
            · exact hne h'.symm
            · exact absurd (hx y h') (not_lt.mpr (le_of_lt (hy x h)))
        subst hxy
        have := eq_of_sorted_strict_perm xs ys (hp.cons_inv) hxs hys
        rw [this]

theorem strict_of_sorted_nodup {α : Type} (l : List (α × ℚ))
    (hs : l.Pairwise (fun a b => b.2 ≤ a.2))
    (hn : (l.map (·.2)).Nodup) :
    l.Pairwise (fun a b => b.2 < a.2) := by
  have hne : l.Pairwise (fun a b => a.2 ≠ b.2) := List.pairwise_map.mp hn
  exact (hs.and hne).imp (fun h => lt_of_le_of_ne h.1 (Ne.symm h.2))

theorem filter_pos_eq_nil {α : Type} (l : List (α × ℚ))
    (h : ∀ x ∈ l, x.2 ≤ 0) : l.filter (fun p => decide (0 < p.2)) = [] := by
  induction l with
  | nil => rfl
  | cons x xs ih =>
    rw [List.filter_cons, if_neg]
    · exact ih (fun y hy => h y (List.mem_cons_of_mem _ hy))
    · simpa using not_lt.mpr (h x (List.mem_cons_self x xs))

theorem filter_nonpos_eq_self {α : Type} (l : List (α × ℚ))
    (h : ∀ x ∈ l, x.2 ≤ 0) :
    l.filter (fun p => !(decide (0 < p.2))) = l := by
  induction l with
  | nil => rfl
  | cons x xs ih =>
    rw [List.filter_cons, if_pos]
    · rw [ih (fun y hy => h y (List.mem_cons_of_mem _ hy))]
    · simpa using not_lt.mpr (h x (List.mem_cons_self x xs))

/-- A descending-sorted list of nonnegative scores is its positive part
followed by its zero part. -/
theorem sorted_nonneg_split {α : Type} (l : List (α × ℚ))
    (hs : l.Pairwise (fun a b => b.2 ≤ a.2)) (hn : ∀ x ∈ l, 0 ≤ x.2) :
    l = l.filter (fun p => decide (0 < p.2)) ++
        l.filter (fun p => !(decide (0 < p.2))) := by
  induction l with
  | nil => rfl
  | cons x xs ih =>
    cases hs with
    | cons hx hxs =>
      by_cases hpos : 0 < x.2
      · rw [List.filter_cons, List.filter_cons, if_pos (by simpa using hpos),
            if_neg (by simpa using hpos)]
        rw [List.cons_append]
        exact congrArg (x :: ·)
          (ih hxs (fun y hy => hn y (List.mem_cons_of_mem _ hy)))
      · have hx0 : x.2 = 0 :=
          le_antisymm (not_lt.mp hpos) (hn x (List.mem_cons_self x xs))
        have hall : ∀ y ∈ x :: xs, y.2 ≤ 0 := by
          intro y hy
          rcases List.mem_cons.mp hy with hy | hy
          · exact hy ▸ le_of_eq hx0
          · exact hx0 ▸ hx y hy
        rw [filter_pos_eq_nil _ hall, filter_nonpos_eq_self _ hall, List.nil_append]

/-! ### Lemmas about the dictionary model -/

theorem dictUpd_keys_mem {β : Type} (d : List (String × β)) (k : String) (v : β)
    (h : k ∈ d.map (·.1)) :
    (dictUpd d k v).map (·.1) = d.map (·.1) := by
  induction d with
  | nil => simp at h
  | cons p rest ih =>
    rw [dictUpd]
    by_cases hk : p.1 = k
    · rw [if_pos hk, List.map_cons, List.map_cons, hk]
    · rw [List.map_cons] at h
      rcases List.mem_cons.mp h with h' | h'
      · exact absurd h'.symm hk
      · rw [if_neg hk, List.map_cons, List.map_cons, ih h']

theorem dictUpd_keys_new {β : Type} (d : List (String × β)) (k : String) (v : β)
    (h : k ∉ d.map (·.1)) : dictUpd d k v = d ++ [(k, v)] := by
  induction d with
  | nil => rfl
  | cons p rest ih =>
    rw [dictUpd, if_neg, List.cons_append]
    · rw [ih (fun hmem => h (by simpa using Or.inr (by simpa using hmem)))]
    · intro hpk
      exact h (by simp [hpk.symm])

theorem dictUpd_keys_nodup {β : Type} (d : List (String × β)) (k : String) (v : β)
    (h : (d.map (·.1)).Nodup) : ((dictUpd d k v).map (·.1)).Nodup := by
  by_cases hk : k ∈ d.map (·.1)
  · rw [dictUpd_keys_mem d k v hk]; exact h
  · rw [dictUpd_keys_new d k v hk]
    simp only [List.map_append, List.map_cons, List.map_nil]
    exact List.Nodup.append h (List.nodup_singleton k)
      (by simpa using fun h' => hk h')

theorem dictFromAux_keys_nodup {β : Type} (l acc : List (String × β))
    (h : (acc.map (·.1)).Nodup) :
    ((l.foldl (fun d p => dictUpd d p.1 p.2) acc).map (·.1)).Nodup := by
  induction l generalizing acc with
  | nil => exact h
  | cons p rest ih =>
    exact ih (dictUpd acc p.1 p.2) (dictUpd_keys_nodup acc p.1 p.2 h)

/-- The keys of a Python dict are distinct. -/
theorem dictFrom_keys_nodup {β : Type} (l : List (String × β)) :
    ((dictFrom l).map (·.1)).Nodup :=
  dictFromAux_keys_nodup l [] (by simp)

theorem dictFromAux_eq_append {β : Type} (l acc : List (String × β))
    (h : ((acc ++ l).map (·.1)).Nodup) :
    l.foldl (fun d p => dictUpd d p.1 p.2) acc = acc ++ l := by
  induction l generalizing acc with
  | nil => simp
  | cons p rest ih =>
    rw [List.foldl_cons]
    have hnotin : p.1 ∉ acc.map (·.1) := by
      intro hmem
      rcases (List.nodup_append.mp (by simpa using h)) with ⟨_, _, hdisj⟩
      exact hdisj hmem (by simp)
    rw [dictUpd_keys_new acc p.1 p.2 hnotin]
    rw [ih (acc ++ [(p.1, p.2)]) (by simpa using h), List.append_assoc]
    rfl

/-- `dict(pairs)` with distinct keys is just the pair list. -/
theorem dictFrom_eq_self {β : Type} (l : List (String × β))
    (h : (l.map (·.1)).Nodup) : dictFrom l = l :=
  dictFromAux_eq_append l [] (by simpa using h)

theorem alookup_cons {β : Type} (k : String) (v : β) (rest : List (String × β))
    (k' : String) :
    alookup ((k, v) :: rest) k' = if k = k' then some v else alookup rest k' := by
  by_cases hk : k = k'
  · subst hk
    simp [alookup, List.find?_cons]
  · simp [alookup, List.find?_cons, hk]

theorem alookup_eq_none {β : Type} (l : List (String × β)) (k : String)
    (h : k ∉ l.map (·.1)) : alookup l k = none := by
  induction l with
  | nil => rfl
  | cons p rest ih =>
    rw [show p = (p.1, p.2) from rfl, alookup_cons, if_neg, ih]
    · intro hmem
      exact h (by simp [hmem])
    · intro hk
      exact h (by simp [hk.symm])

theorem alookup_of_mem_nodup {β : Type} (l : List (String × β)) (k : String)
    (v : β) (hn : (l.map (·.1)).Nodup) (hmem : (k, v) ∈ l) :
    alookup l k = some v := by
  induction l with
  | nil => simp at hmem
  | cons p rest ih =>
    rw [List.map_cons] at hn
    rcases List.mem_cons.mp hmem with h | h
    · rw [← h, alookup_cons, if_pos rfl]
    · rw [show p = (p.1, p.2) from rfl, alookup_cons, if_neg, ih hn.of_cons h]
      intro hk
      apply (List.nodup_cons.mp hn).1
      rw [hk]
      exact List.mem_map.mpr ⟨(k, v), h, rfl⟩

theorem alookup_mem {β : Type} (l : List (String × β)) (k : String) (v : β)
    (h : alookup l k = some v) : (k, v) ∈ l := by
  induction l with
  | nil => simp [alookup] at h
  | cons p rest ih =>
    rw [show p = (p.1, p.2) from rfl, alookup_cons] at h
    split at h
    · rename_i hk
      rw [Option.some_inj] at h
      subst hk
      subst h
      simp
    · exact List.mem_cons_of_mem _ (ih h)

theorem alookup_isSome {β : Type} (l : List (String × β)) (k : String)
    (h : k ∈ l.map (·.1)) : (alookup l k).isSome := by
  induction l with
  | nil => simp at h
  | cons p rest ih =>
    rw [show p = (p.1, p.2) from rfl, alookup_cons]
    by_cases hk : p.1 = k
    · rw [if_pos hk]; rfl
    · rw [List.map_cons] at h
      rcases List.mem_cons.mp h with h' | h'
      · exact absurd h'.symm hk
      · rw [if_neg hk]; exact ih h'

/-- Reading every key of a dict with distinct keys back gives the dict. -/
theorem alookup_map_recover {β : Type} (l : List (String × β)) (d0 : β)
    (hn : (l.map (·.1)).Nodup) :
    (l.map (·.1)).map (fun k => (k, (alookup l k).getD d0)) = l := by
  induction l with
  | nil => rfl
  | cons p rest ih =>
    rw [List.map_cons] at hn
    rw [List.map_cons, List.map_cons]
    have h1 : alookup (p :: rest) p.1 = some p.2 :=
      alookup_of_mem_nodup _ _ _ (by simpa using hn) (by simp)
    have h2 : ∀ k ∈ rest.map (·.1), alookup (p :: rest) k = alookup rest k := by
      intro k hk
      rw [show p = (p.1, p.2) from rfl, alookup_cons, if_neg]
      intro he
      exact (List.nodup_cons.mp hn).1 (he ▸ hk)
    have h4 : (rest.map (·.1)).map (fun k => (k, (alookup (p :: rest) k).getD d0))
        = (rest.map (·.1)).map (fun k => (k, (alookup rest k).getD d0)) :=
      List.map_congr_left (fun k hk => by rw [h2 k hk])
    rw [h1, h4, ih hn.of_cons]
    rfl

/-! ### Lemmas about score normalization -/

theorem maxScore_ge {α : Type} (l : List (α × ℚ)) (p : α × ℚ) (hp : p ∈ l) :
    p.2 ≤ maxScore l := by
  induction l with
  | nil => simp at hp
  | cons x xs ih =>
    cases xs with
    | nil =>
      rcases List.mem_cons.mp hp with h | h
      · rw [h]; exact le_refl _
      · simp at h
    | cons y ys =>
      rw [maxScore]
      rcases List.mem_cons.mp hp with h | h
      · rw [h]; exact le_max_left _ _
      · exact le_trans (ih h) (le_max_right _ _)

theorem normalizePass_cons {α : Type} (x : α × ℚ) (l : List (α × ℚ)) :
    normalizePass (x :: l) = (x :: l).map (fun p =>
      (p.1, if 0 < maxScore (x :: l) then p.2 / maxScore (x :: l) else 0)) := rfl

theorem normalizePass_eq_map {α : Type} (l : List (α × ℚ)) (h : l ≠ []) :
    normalizePass l = l.map (fun p =>
      (p.1, if 0 < maxScore l then p.2 / maxScore l else 0)) := by
  cases l with
  | nil => exact absurd rfl h
  | cons x xs => exact normalizePass_cons x xs

theorem normalizePass_fst {α : Type} (l : List (α × ℚ)) :
    (normalizePass l).map (·.1) = l.map (·.1) := by
  cases l with
  | nil => rfl
  | cons x xs =>
    rw [normalizePass_cons, List.map_map]
    rfl

theorem normalizePass_length {α : Type} (l : List (α × ℚ)) :
    (normalizePass l).length = l.length := by
  cases l with
  | nil => rfl
  | cons x xs => rw [normalizePass_cons, List.length_map]

theorem normalizePass_sorted {α : Type} (l : List (α × ℚ))
    (h : l.Pairwise (fun a b => b.2 ≤ a.2)) :
    (normalizePass l).Pairwise (fun a b => b.2 ≤ a.2) := by
  cases l with
  | nil => exact List.Pairwise.nil
  | cons x xs =>
    rw [normalizePass_cons]
    rw [List.pairwise_map]
    refine h.imp ?_
    intro a b hab
    by_cases hm : 0 < maxScore (x :: xs)
    · simpa [hm] using (div_le_div_iff_of_pos_right hm).mpr hab
    · simp [hm]

theorem normalizePass_nonneg {α : Type} (l : List (α × ℚ))
    (h : ∀ p ∈ l, 0 ≤ p.2) : ∀ p ∈ normalizePass l, 0 ≤ p.2 := by
  cases l with
  | nil => intro p hp; simp [normalizePass] at hp
  | cons x xs =>
    rw [normalizePass_cons]
    intro p hp
    rcases List.mem_map.mp hp with ⟨q, hq, rfl⟩
    by_cases hm : 0 < maxScore (x :: xs)
    · simpa [hm] using div_nonneg (h q hq) (le_of_lt hm)
    · simp [hm]

theorem normalizePass_pos {α : Type} (l : List (α × ℚ))
    (h : ∀ p ∈ l, 0 < p.2) : ∀ p ∈ normalizePass l, 0 < p.2 := by
  cases l with
  | nil => intro p hp; simp [normalizePass] at hp
  | cons x xs =>
    have hm : 0 < maxScore (x :: xs) :=
      lt_of_lt_of_le (h x (List.mem_cons_self x xs))
        (maxScore_ge _ x (List.mem_cons_self x xs))
    rw [normalizePass_cons]
    intro p hp
    rcases List.mem_map.mp hp with ⟨q, hq, rfl⟩
    simpa [hm] using div_pos (h q hq) hm

theorem normalizePass_strict {α : Type} (l : List (α × ℚ))
    (hs : l.Pairwise (fun a b => b.2 < a.2)) (hpos : ∀ p ∈ l, 0 < p.2) :
    (normalizePass l).Pairwise (fun a b => b.2 < a.2) := by
  cases l with
  | nil => exact List.Pairwise.nil
  | cons x xs =>
    have hm : 0 < maxScore (x :: xs) :=
      lt_of_lt_of_le (hpos x (List.mem_cons_self x xs))
        (maxScore_ge _ x (List.mem_cons_self x xs))
    rw [normalizePass_cons, List.pairwise_map]
    refine hs.imp ?_
    intro a b hab
    simpa [hm] using (div_lt_div_iff_of_pos_right hm).mpr hab

/-- When both passes carry distinct ids, the source's dict bookkeeping is the
identity and `_hybrid_rerank` is exactly the spec's fusion pipeline. -/
theorem hybrid_eq_spec (documents : List Document)
    (bm25_results : List (Nat × ℚ)) (dense_results : List (String × ℚ))
    (top_k : Nat) (w : ℚ)
    (hL : ((lexNorm documents bm25_results).map (·.1)).Nodup)
    (hV : ((dense_results).map (·.1)).Nodup) :
    hybrid_rerank documents bm25_results dense_results top_k w =
      specFusion documents bm25_results dense_results top_k w := by
  have hV' : ((normalizePass dense_results).map (·.1)).Nodup := by
    rw [normalizePass_fst]; exact hV
  simp only [lexNorm] at hL
  simp only [hybrid_rerank, specFusion, lexNorm, vecNorm, unionIds, specCombined]
  rw [dictFrom_eq_self _ hL, dictFrom_eq_self _ hV']

/-! ### Lemmas about document resolution and output ids -/

theorem lastDoc_id (documents : List Document) (i : String) (d : Document)
    (h : lastDoc documents i = some d) : d.id = i := by
  have := List.find?_some h
  simpa using this

theorem lastDoc_mem (documents : List Document) (i : String) (d : Document)
    (h : lastDoc documents i = some d) : d ∈ documents := by
  have := List.mem_of_find?_eq_some h
  simpa using this

/-- With distinct corpus ids, looking up any member's id gives it back. -/
theorem lastDoc_of_mem_nodup (documents : List Document) (d : Document)
    (hn : (documents.map (·.id)).Nodup) (hmem : d ∈ documents) :
    lastDoc documents d.id = some d := by
  have hex : (lastDoc documents d.id).isSome := by
    rw [lastDoc, List.find?_isSome]
    exact ⟨d, List.mem_reverse.mpr hmem, by simp⟩
  obtain ⟨d', hd'⟩ := Option.isSome_iff_exists.mp hex
  have hid : d'.id = d.id := lastDoc_id documents d.id d' hd'
  have hmem' : d' ∈ documents := lastDoc_mem documents d.id d' hd'
  have : d' = d := List.inj_on_of_nodup_map hn hmem' hmem hid
  rw [hd', this]

/-- The ids of the resolved output are the ids of the kept sorted entries. -/
theorem resolve_ids (documents : List Document) (l : List (String × ℚ)) :
    ((l.filterMap (fun p => (lastDoc documents p.1).map (fun d => (d, p.2)))).map
      (fun q => q.1.id)) =
    (l.filter (fun p => (lastDoc documents p.1).isSome)).map (·.1) := by
  induction l with
  | nil => rfl
  | cons p rest ih =>
    rw [List.filterMap_cons, List.filter_cons]
    cases hp : lastDoc documents p.1 with
    | none => simpa [hp] using ih
    | some d =>
      have hid : d.id = p.1 := lastDoc_id documents p.1 d hp
      simp [hp, hid, ih]

theorem unionIds_nodup (ls vs : List String) (hl : ls.Nodup) (hv : vs.Nodup) :
    (unionIds ls vs).Nodup := by
  rw [unionIds, List.nodup_append]
  refine ⟨hl, hv.filter _, ?_⟩
  intro a ha hmem
  rcases List.mem_filter.mp hmem with ⟨_, hcond⟩
  simp at hcond
  exact hcond ha

theorem map_fst_combined (U : List String) (c : String → ℚ) :
    ((U.map (fun i => (i, c i))).map (·.1)) = U := by
  induction U with
  | nil => rfl
  | cons u us ih => simp [ih]

theorem nodup_fst_of_sublist (l l' : List (String × ℚ)) (hsub : l'.Sublist l)
    (h : (l.map (·.1)).Nodup) : (l'.map (·.1)).Nodup :=
  List.Nodup.sublist (hsub.map _) h

theorem sortDesc_combined_fst_nodup (U : List String) (c : String → ℚ)
    (h : U.Nodup) :
    ((sortDesc (U.map (fun i => (i, c i)))).map (·.1)).Nodup := by
  have hperm : ((sortDesc (U.map (fun i => (i, c i)))).map (·.1)).Perm
      ((U.map (fun i => (i, c i))).map (·.1)) := (sortDesc_perm _).map _
  rw [map_fst_combined] at hperm
  exact hperm.nodup_iff.mpr h

/-- The ids of the pairs produced by `_hybrid_rerank` are distinct: the output
never carries two entries for the same document id. -/
theorem hybrid_ids_nodup (documents : List Document)
    (bm25_results : List (Nat × ℚ)) (dense_results : List (String × ℚ))
    (top_k : Nat) (w : ℚ) :
    ((hybrid_rerank documents bm25_results dense_results top_k w).map
      (fun q => q.1.id)).Nodup := by
  rw [hybrid_rerank]
  rw [resolve_ids]
  refine nodup_fst_of_sublist _ _
    ((List.filter_sublist _).trans (List.take_sublist _ _)) ?_
  exact sortDesc_combined_fst_nodup _ _
    (unionIds_nodup _ _ (dictFrom_keys_nodup _) (dictFrom_keys_nodup _))

/-- Every pair `_hybrid_rerank` returns resolves its id to the most recently
added document with that id (`doc_lookup` is built left to right, so a later
duplicate overwrites an earlier one). -/
theorem hybrid_lastDoc (documents : List Document)
    (bm25_results : List (Nat × ℚ)) (dense_results : List (String × ℚ))
    (top_k : Nat) (w : ℚ) (p : Document × ℚ)
    (hp : p ∈ hybrid_rerank documents bm25_results dense_results top_k w) :
    lastDoc documents p.1.id = some p.1 := by
  rw [hybrid_rerank] at hp
  rcases List.mem_filterMap.mp hp with ⟨a, _, ha⟩
  rcases Option.map_eq_some'.mp ha with ⟨d, hd, hdp⟩
  have hid : d.id = a.1 := lastDoc_id documents a.1 d hd
  rw [← hdp]
  simp only
  rw [hid]
  exact hd

/-- `retrieve` on an initialized retriever is the hybrid fusion of the two
passes over `2·top_k` candidates. -/
theorem retrieve_init (st : HybridRetriever) (f : List String → List ℚ)
    (hb : st.bm25 = some f) (he : st.embedding_model = some ())
    (query : String) (top_k : Nat) (w : ℚ) :
    retrieve st query top_k w =
      hybrid_rerank st.documents (bm25_retrieve f query (top_k * 2))
        (dense_retrieve st.chroma_query query (top_k * 2)) top_k w := by
  rcases st with ⟨docs, b, e, c⟩
  cases hb
  cases he
  rfl

/-- An uninitialized retriever returns no results. -/
theorem retrieve_uninit_empty (st : HybridRetriever)
    (h : st.bm25 = none ∨ st.embedding_model = none) (query : String)
    (top_k : Nat) (w : ℚ) : retrieve st query top_k w = [] := by
  rcases st with ⟨docs, b, e, c⟩
  rcases h with h | h
  · cases h
    cases e <;> rfl
  · cases h
    cases b <;> rfl

/-- C5: if either the lexical index or the embedding side is uninitialized,
`retrieve` returns the empty result for every query, topK and weight; the
guard is the first statement of `retrieve`, before any fallible operation, so
no exception can be raised on this path. -/
theorem C5_retrieve_uninitialized_empty (st : HybridRetriever)
    (h : st.bm25 = none ∨ st.embedding_model = none) (query : String)
    (top_k : Nat) (w : ℚ) : retrieve st query top_k w = [] :=
  retrieve_uninit_empty st h query top_k w

theorem C5_witness :
    retrieve ⟨[], none, some (), fun _ _ => []⟩ "q" 3 (3/10) = [] :=
  C5_retrieve_uninitialized_empty ⟨[], none, some (), fun _ _ => []⟩
    (Or.inl rfl) "q" 3 (3/10)

/-- For every retriever state and query, the ids in the result are distinct. -/
theorem retrieve_ids_nodup (st : HybridRetriever) (query : String)
    (top_k : Nat) (w : ℚ) :
    ((retrieve st query top_k w).map (fun q => q.1.id)).Nodup := by
  rcases hb : st.bm25 with _ | f
  · rw [retrieve_uninit_empty st (Or.inl hb) query top_k w]
    exact List.nodup_nil
  · rcases he : st.embedding_model with _ | u
    · rw [retrieve_uninit_empty st (Or.inr he) query top_k w]
      exact List.nodup_nil
    · cases u
      rw [retrieve_init st f hb he query top_k w]
      exact hybrid_ids_nodup _ _ _ _ _

/-- Every returned pair resolves to the most recently added document with its
id. -/
theorem retrieve_last_wins (st : HybridRetriever) (query : String)
    (top_k : Nat) (w : ℚ) (p : Document × ℚ)
    (hp : p ∈ retrieve st query top_k w) :
    lastDoc st.documents p.1.id = some p.1 := by
  rcases hb : st.bm25 with _ | f
  · rw [retrieve_uninit_empty st (Or.inl hb) query top_k w] at hp
    simp at hp
  · rcases he : st.embedding_model with _ | u
    · rw [retrieve_uninit_empty st (Or.inr he) query top_k w] at hp
      simp at hp
    · cases u
      rw [retrieve_init st f hb he query top_k w] at hp
      exact hybrid_lastDoc _ _ _ _ _ p hp

/-- C10: for every retriever state — also one whose corpus holds several
documents sharing an id — and every query, `retrieve` returns at most one
pair per document id, and the document returned for an id is the most
recently added document bearing that id. -/
theorem C10_retrieve_unique_ids_last_wins (st : HybridRetriever)
    (query : String) (top_k : Nat) (w : ℚ) (p : Document × ℚ)
    (hp : p ∈ retrieve st query top_k w) :
    ((retrieve st query top_k w).map (fun q => q.1.id)).Nodup ∧
    lastDoc st.documents p.1.id = some p.1 :=
  ⟨retrieve_ids_nodup st query top_k w,
   retrieve_last_wins st query top_k w p hp⟩

theorem C10_witness :
    ((retrieve ⟨[⟨"c", [], "a"⟩], some (fun _ => [1]), some (), fun _ _ => []⟩
        "q" 1 (1/2)).map (fun q => q.1.id)).Nodup ∧
    lastDoc [⟨"c", [], "a"⟩] (⟨"c", [], "a"⟩ : Document).id =
      some ⟨"c", [], "a"⟩ :=
  C10_retrieve_unique_ids_last_wins
    ⟨[⟨"c", [], "a"⟩], some (fun _ => [1]), some (), fun _ _ => []⟩
    "q" 1 (1/2) (⟨"c", [], "a"⟩, 1/2) (by
      have h : retrieve
          ⟨[⟨"c", [], "a"⟩], some (fun _ => [1]), some (), fun _ _ => []⟩
          "q" 1 (1/2) = [(⟨"c", [], "a"⟩, 1/2)] := by
        norm_num [retrieve, hybrid_rerank, bm25_retrieve, dense_retrieve,
          pySplitWs, splitWsAux, isPySpace, sortAsc, insertAsc, normalizePass,
          maxScore, dictFrom, dictUpd, alookup, unionIds, sortDesc, insertDesc,
          lastDoc, List.filterMap_cons, List.foldl_cons, List.foldl_nil,
          List.find?_cons]
      rw [h]
      exact List.mem_singleton.mpr rfl)

/-! ### C2: double ingestion -/

/-- `add_documents` always leaves the corpus extended by the batch, whatever
the vector side does. -/
theorem add_documents_documents
    (mkBm25 : List (List String) → List String → List ℚ)
    (chromaAdd : (String → Nat → List (String × ℚ)) → List Document →
      String → Nat → List (String × ℚ))
    (st : HybridRetriever) (docs : List Document) :
    (add_documents mkBm25 chromaAdd st docs).documents =
      st.documents ++ docs := by
  rcases st with ⟨d, b, e, c⟩
  cases e <;> rfl

/-- C2 as stated is false: adding the same one-document batch twice leaves the
corpus (`self.documents`) with the id `"a"` twice — `extend` never removes
duplicates. -/
theorem C2_counterexample :
    ((add_documents (fun _ _ => []) (fun c _ => c)
        (add_documents (fun _ _ => []) (fun c _ => c)
          ⟨[], none, some (), fun _ _ => []⟩ [⟨"hello", [], "a"⟩])
        [⟨"hello", [], "a"⟩]).documents.map (fun d => d.id)) = ["a", "a"] ∧
    ¬ (["a", "a"] : List String).Nodup := by
  exact ⟨rfl, by decide⟩

/-- C2 amended: adding the same batch twice appends it twice (the corpus holds
each batch document's id twice, later occurrences last); retrieval still
returns at most one pair per id and resolves each id to the most recently
added document, so the duplicates are invisible in results — though scores
need not match the single-add state, the lexical index being rebuilt over the
doubled corpus. -/
theorem C2_add_twice_amended
    (mkBm25 : List (List String) → List String → List ℚ)
    (chromaAdd : (String → Nat → List (String × ℚ)) → List Document →
      String → Nat → List (String × ℚ))
    (st : HybridRetriever) (batch : List Document) (query : String)
    (top_k : Nat) (w : ℚ) (p : Document × ℚ)
    (hp : p ∈ retrieve (add_documents mkBm25 chromaAdd
        (add_documents mkBm25 chromaAdd st batch) batch) query top_k w) :
    (add_documents mkBm25 chromaAdd
        (add_documents mkBm25 chromaAdd st batch) batch).documents =
      st.documents ++ batch ++ batch ∧
    ((retrieve (add_documents mkBm25 chromaAdd
        (add_documents mkBm25 chromaAdd st batch) batch) query top_k w).map
      (fun q => q.1.id)).Nodup ∧
    lastDoc (st.documents ++ batch ++ batch) p.1.id = some p.1 := by
  have hdocs : (add_documents mkBm25 chromaAdd
      (add_documents mkBm25 chromaAdd st batch) batch).documents =
      st.documents ++ batch ++ batch := by
    rw [add_documents_documents, add_documents_documents]
  refine ⟨hdocs, retrieve_ids_nodup _ query top_k w, ?_⟩
  rw [← hdocs]
  exact retrieve_last_wins _ query top_k w p hp

theorem C2_witness :
    (add_documents (fun docs _ => docs.map (fun _ => (1:ℚ))) (fun c _ => c)
        (add_documents (fun docs _ => docs.map (fun _ => (1:ℚ))) (fun c _ => c)
          ⟨[], none, some (), fun _ _ => []⟩ [⟨"hello", [], "a"⟩])
        [⟨"hello", [], "a"⟩]).documents =
      ([] : List Document) ++ [⟨"hello", [], "a"⟩] ++ [⟨"hello", [], "a"⟩] ∧
    ((retrieve (add_documents (fun docs _ => docs.map (fun _ => (1:ℚ)))
        (fun c _ => c)
        (add_documents (fun docs _ => docs.map (fun _ => (1:ℚ))) (fun c _ => c)
          ⟨[], none, some (), fun _ _ => []⟩ [⟨"hello", [], "a"⟩])
        [⟨"hello", [], "a"⟩]) "q" 1 (1/2)).map (fun q => q.1.id)).Nodup ∧
    lastDoc (([] : List Document) ++ [⟨"hello", [], "a"⟩] ++ [⟨"hello", [], "a"⟩])
      (⟨"hello", [], "a"⟩ : Document).id = some ⟨"hello", [], "a"⟩ :=
  C2_add_twice_amended (fun docs _ => docs.map (fun _ => (1:ℚ)))
    (fun c _ => c) ⟨[], none, some (), fun _ _ => []⟩ [⟨"hello", [], "a"⟩]
    "q" 1 (1/2) (⟨"hello", [], "a"⟩, 1/2) (by
      have h : retrieve (add_documents (fun docs _ => docs.map (fun _ => (1:ℚ)))
          (fun c _ => c)
          (add_documents (fun docs _ => docs.map (fun _ => (1:ℚ))) (fun c _ => c)
            ⟨[], none, some (), fun _ _ => []⟩ [⟨"hello", [], "a"⟩])
          [⟨"hello", [], "a"⟩]) "q" 1 (1/2) = [(⟨"hello", [], "a"⟩, 1/2)] := by
        norm_num [retrieve, add_documents, hybrid_rerank, bm25_retrieve,
          dense_retrieve, pySplitWs, splitWsAux, isPySpace, sortAsc, insertAsc,
          normalizePass, maxScore, dictFrom, dictUpd, alookup, unionIds,
          sortDesc, insertDesc, lastDoc, List.filterMap_cons, List.foldl_cons,
          List.foldl_nil, List.find?_cons, List.getElem?_cons_zero,
          List.getElem?_cons_succ, List.getElem_cons_zero,
          List.getElem_cons_succ,
          show ([⟨"hello", [], "a"⟩, ⟨"hello", [], "a"⟩] :
            List Document)[1] = ⟨"hello", [], "a"⟩ from rfl]
      rw [h]
      exact List.mem_singleton.mpr rfl)

/-! ### C4 and C8: query decomposition -/

/-- The rule-based fallback never returns an empty list: when no rule matches
it emits the single `general` sub-question. -/
theorem fallback_nonempty (q : String) : fallback_decomposition q ≠ [] := by
  simp only [fallback_decomposition]
  split_ifs <;> simp_all

/-- C4: for every non-empty input, `decompose` returns a non-empty list when
the language-model collaborator is unavailable or raises (`Except.error`),
when its response carries no structured span (no `[`), or when the extracted
span does not parse — all of these reach the rule-based fallback, which is
never empty. -/
theorem C4_decompose_fallback_total (llm_response : Except Unit String)
    (parseJson : String → Option (List SubQuestion)) (user_query : String)
    (hq : user_query ≠ "")
    (hbad : (∃ e, llm_response = Except.error e) ∨
      ∃ r, llm_response = Except.ok r ∧
        (r.data.contains '[' = false ∨ parseJson (jsonSpan r) = none)) :
    decompose_query llm_response parseJson user_query ≠ [] := by
  rcases hbad with ⟨e, rfl⟩ | ⟨r, rfl, hr⟩
  · exact fallback_nonempty user_query
  · rw [decompose_query]
    rcases hr with hr | hr
    · rw [if_neg (by rw [hr]; exact Bool.false_ne_true)]
      exact fallback_nonempty user_query
    · by_cases hc : r.data.contains '[' = true
      · rw [if_pos hc, hr]
        exact fallback_nonempty user_query
      · rw [if_neg hc]
        exact fallback_nonempty user_query

theorem C4_witness :
    decompose_query (Except.error ()) (fun _ => none) "x" ≠ [] :=
  C4_decompose_fallback_total (Except.error ()) (fun _ => none) "x"
    (by decide) (Or.inl ⟨(), rfl⟩)

/-- C8 fails on the fallback path: the query "linear regression plot" matches
both the regression rule and the plotting rule, and their blocks are
concatenated as written, giving priorities [1,2,2,1,2] — not ascending. -/
theorem C8_counterexample :
    (decompose_query (Except.error ()) (fun _ => none)
        "linear regression plot").map (fun sq => sq.priority) =
      ([1, 2, 2, 1, 2] : List Int) ∧
    ¬ List.Pairwise (fun a b : Int => a ≤ b) [1, 2, 2, 1, 2] :=
  ⟨by decide, by decide⟩

theorem insertByPriority_perm (x : SubQuestion) (l : List SubQuestion) :
    (insertByPriority x l).Perm (x :: l) := by
  induction l with
  | nil => simp [insertByPriority]
  | cons y ys ih =>
    rw [insertByPriority]
    split
    · exact ((ih.cons y).trans (List.Perm.swap x y ys))
    · exact List.Perm.refl _

theorem insertByPriority_sorted (x : SubQuestion) (l : List SubQuestion)
    (h : l.Pairwise (fun a b => a.priority ≤ b.priority)) :
    (insertByPriority x l).Pairwise (fun a b => a.priority ≤ b.priority) := by
  induction l with
  | nil => simp [insertByPriority]
  | cons y ys ih =>
    cases h with
    | cons hy hys =>
      rw [insertByPriority]
      split
      · rename_i hlt
        refine List.Pairwise.cons ?_ (ih hys)
        intro z hz
        rcases List.mem_cons.mp (((insertByPriority_perm x ys).mem_iff).mp hz)
          with hz | hz
        · exact hz ▸ le_of_lt hlt
        · exact hy z hz
      · rename_i hge
        push_neg at hge
        refine List.Pairwise.cons ?_ (List.Pairwise.cons hy hys)
        intro z hz
        rcases List.mem_cons.mp hz with hz | hz
        · exact hz ▸ hge
        · exact le_trans hge (hy z hz)

theorem sortByPriority_sorted (l : List SubQuestion) :
    (sortByPriority l).Pairwise (fun a b => a.priority ≤ b.priority) := by
  induction l with
  | nil => exact List.Pairwise.nil
  | cons x xs ih => exact insertByPriority_sorted x (sortByPriority xs) ih

/-- C8 amended: on the language-model path (a structured span is found and
parses) the returned sub-questions are the parsed ones stably sorted
ascending by priority; the rule-based fallback path returns its rule blocks
in rule order, which need not be sorted when several rules match. -/
theorem C8_llm_path_sorted (r : String)
    (parseJson : String → Option (List SubQuestion)) (user_query : String)
    (subs : List SubQuestion) (hc : r.data.contains '[' = true)
    (hp : parseJson (jsonSpan r) = some subs) :
    decompose_query (Except.ok r) parseJson user_query = sortByPriority subs ∧
    (decompose_query (Except.ok r) parseJson user_query).Pairwise
      (fun a b => a.priority ≤ b.priority) := by
  have heq : decompose_query (Except.ok r) parseJson user_query =
      sortByPriority subs := by
    rw [decompose_query, if_pos hc, hp]
  exact ⟨heq, heq ▸ sortByPriority_sorted subs⟩

theorem C8_witness :
    decompose_query (Except.ok "[]")
        (fun _ => some [⟨"b", "general", 2⟩, ⟨"a", "general", 1⟩]) "q" =
      sortByPriority [⟨"b", "general", 2⟩, ⟨"a", "general", 1⟩] ∧
    (decompose_query (Except.ok "[]")
        (fun _ => some [⟨"b", "general", 2⟩, ⟨"a", "general", 1⟩]) "q").Pairwise
      (fun a b => a.priority ≤ b.priority) :=
  C8_llm_path_sorted "[]" (fun _ => some [⟨"b", "general", 2⟩,
    ⟨"a", "general", 1⟩]) "q" [⟨"b", "general", 2⟩, ⟨"a", "general", 1⟩]
    (by decide) rfl

/-! ### C6: multi-hop processing order and context flow -/

theorem multiHopFrom_append (retr : String → Nat → List (Document × ℚ))
    (maxd : Nat) (ctx : List String) (l1 l2 : List SubQuestion) :
    multiHopFrom retr maxd ctx (l1 ++ l2) =
      multiHopFrom retr maxd ctx l1 ++
        multiHopFrom retr maxd (multiHopCtx retr maxd ctx l1) l2 := by
  induction l1 generalizing ctx with
  | nil => rfl
  | cons sq rest ih =>
    simp only [List.cons_append, multiHopFrom, multiHopCtx, List.append_eq]
    rw [ih]

theorem multiHopFrom_fst (retr : String → Nat → List (Document × ℚ))
    (maxd : Nat) (ctx : List String) (l : List SubQuestion) :
    (multiHopFrom retr maxd ctx l).map (·.1) =
      l.map (fun sq => sq.question) := by
  induction l generalizing ctx with
  | nil => rfl
  | cons sq rest ih =>
    simp only [multiHopFrom, List.map_cons]
    rw [ih]

/-- With distinct question texts, the loop's dict accumulation is plain
appending of `(question, results)` pairs in processing order. -/
theorem multiHopGo_append (retr : String → Nat → List (Document × ℚ))
    (maxd : Nat) (subqs : List SubQuestion)
    (acc : List (String × List (Document × ℚ))) (ctx : List String)
    (h : ((acc.map (·.1)) ++ subqs.map (fun sq => sq.question)).Nodup) :
    multiHopGo retr maxd subqs acc ctx =
      acc ++ multiHopFrom retr maxd ctx subqs := by
  induction subqs generalizing acc ctx with
  | nil => simp [multiHopGo, multiHopFrom]
  | cons sq rest ih =>
    simp only [multiHopGo, multiHopFrom]
    have hq : sq.question ∉ acc.map (·.1) := by
      rcases List.nodup_append.mp h with ⟨_, _, hdisj⟩
      intro hmem
      exact hdisj hmem (by simp)
    rw [dictUpd_keys_new _ _ _ hq, ih]
    · simp
    · simp only [List.map_append, List.map_cons, List.map_nil,
        List.append_assoc, List.singleton_append]
      simpa only [List.map_cons] using h

/-- C6 fails as stated: given sub-questions with priorities [2,1,3], the loop
processes them in the order given, so the priority-2 question is handled
first — `multi_hop_retrieve` never sorts by priority. -/
theorem C6_counterexample :
    (([⟨"qA", "general", 2⟩, ⟨"qB", "general", 1⟩, ⟨"qC", "general", 3⟩] :
      List SubQuestion).map (fun sq => sq.priority) = ([2, 1, 3] : List Int)) ∧
    (multi_hop_retrieve (fun _ _ => []) [⟨"qA", "general", 2⟩,
        ⟨"qB", "general", 1⟩, ⟨"qC", "general", 3⟩] 5).map (·.1) =
      ["qA", "qB", "qC"] ∧
    (["qA", "qB", "qC"] : List String) ≠ ["qB", "qA", "qC"] :=
  ⟨by decide, by decide, by decide⟩

/-- C6 amended: `multi_hop_retrieve` processes sub-questions strictly in the
order given (priority order only when the caller pre-sorted them, as the
language-model decomposition path does).  The hops before a split point are
computed exactly as if the later hops did not exist, and the later hops start
from the context accumulated by the earlier ones: tags flow forward, never
backward. -/
theorem C6_hops_in_input_order (retr : String → Nat → List (Document × ℚ))
    (maxd : Nat) (l1 l2 : List SubQuestion)
    (h : ((l1 ++ l2).map (fun sq => sq.question)).Nodup) :
    multi_hop_retrieve retr (l1 ++ l2) maxd =
      multiHopFrom retr maxd [] l1 ++
        multiHopFrom retr maxd (multiHopCtx retr maxd [] l1) l2 ∧
    (multi_hop_retrieve retr (l1 ++ l2) maxd).map (·.1) =
      (l1 ++ l2).map (fun sq => sq.question) := by
  have h0 : multi_hop_retrieve retr (l1 ++ l2) maxd =
      multiHopFrom retr maxd [] (l1 ++ l2) := by
    rw [multi_hop_retrieve, multiHopGo_append]
    · rfl
    · simpa using h
  exact ⟨by rw [h0, multiHopFrom_append],
         by rw [h0, multiHopFrom_fst]⟩

theorem C6_witness :
    multi_hop_retrieve (fun _ _ => [])
        ([⟨"q1", "general", 1⟩] ++ [⟨"q2", "general", 2⟩]) 5 =
      multiHopFrom (fun _ _ => []) 5 [] [⟨"q1", "general", 1⟩] ++
        multiHopFrom (fun _ _ => []) 5
          (multiHopCtx (fun _ _ => []) 5 [] [⟨"q1", "general", 1⟩])
          [⟨"q2", "general", 2⟩] ∧
    (multi_hop_retrieve (fun _ _ => [])
        ([⟨"q1", "general", 1⟩] ++ [⟨"q2", "general", 2⟩]) 5).map (·.1) =
      ([⟨"q1", "general", 1⟩] ++ [⟨"q2", "general", 2⟩] :
        List SubQuestion).map (fun sq => sq.question) :=
  C6_hops_in_input_order (fun _ _ => []) 5 [⟨"q1", "general", 1⟩]
    [⟨"q2", "general", 2⟩] (by decide)

/-! ### C7: context-tag extraction -/

theorem docTags_length_le (d : Document) : (docTags d).length ≤ 3 := by
  cases hp : alookup d.metadata "package" <;>
    cases hf : alookup d.metadata "function" <;>
      cases ht : alookup d.metadata "task" <;>
        simp [docTags, hp, hf, ht]

/-- C7 fails as stated: one result whose metadata has `package`, `function`
and `task` (the shape of every document of the built-in minimal index)
already yields 3 context tags — more than 2. -/
theorem C7_counterexample :
    extract_context_info [(⟨"c", [("type", "function"), ("package", "stats"),
        ("function", "lm"), ("task", "statistical_modeling")], "lm_doc"⟩, 1)] =
      ["package:stats", "function:lm", "task:statistical_modeling"] ∧
    ¬ (["package:stats", "function:lm", "task:statistical_modeling"] :
        List String).length ≤ 2 :=
  ⟨by decide, by decide⟩

/-- C7 amended: after each hop, up to 3 tags per result (package, function,
task — those present in its metadata) are extracted from the top 2 results of
that hop, hence at most 6 in total, and only the top 2 results contribute. -/
theorem C7_extract_amended (results : List (Document × ℚ)) :
    extract_context_info results = extract_context_info (results.take 2) ∧
    (extract_context_info results).length ≤ 6 := by
  constructor
  · rw [extract_context_info, extract_context_info, List.take_take]
    norm_num
  · match results with
    | [] => simp [extract_context_info]
    | [a] =>
      have := docTags_length_le a.1
      simp only [extract_context_info, List.take, List.flatMap_cons,
        List.flatMap_nil, List.append_nil]
      omega
    | a :: b :: rest =>
      have heq : extract_context_info (a :: b :: rest) =
          docTags a.1 ++ docTags b.1 := by
        simp [extract_context_info]
      rw [heq, List.length_append]
      have h1 := docTags_length_le a.1
      have h2 := docTags_length_le b.1
      omega

/-! ### C9: validation of the synthesized answer -/

theorem dangerScan_ne_none (cl : String)
    (hd : strContains "system(" cl = true ∨ strContains "unlink(" cl = true ∨
      strContains "file.remove(" cl = true) : dangerScan cl ≠ none := by
  rw [dangerScan]
  split_ifs <;> simp_all

theorem validate_code_block_ne_none (code : String)
    (hd : strContains "system(" (pyLower code) = true ∨
      strContains "unlink(" (pyLower code) = true ∨
      strContains "file.remove(" (pyLower code) = true) :
    validate_code_block code ≠ none := by
  simp only [validate_code_block]
  split_ifs <;> first
    | exact dangerScan_ne_none _ hd
    | simp

theorem exists_enumFrom_of_mem {α : Type} (l : List α) (n : Nat) (a : α)
    (h : a ∈ l) : ∃ i, (i, a) ∈ l.enumFrom n := by
  induction l generalizing n with
  | nil => simp at h
  | cons x xs ih =>
    rcases List.mem_cons.mp h with rfl | h
    · exact ⟨n, by simp [List.enumFrom]⟩
    · rcases ih (n + 1) h with ⟨i, hi⟩
      exact ⟨i, List.mem_cons_of_mem _ hi⟩

theorem exists_enum_of_mem {α : Type} (l : List α) (a : α) (h : a ∈ l) :
    ∃ i, (i, a) ∈ l.enum :=
  exists_enumFrom_of_mem l 0 a h

theorem validationNotes_ne_nil (blocks : List String) (b : String)
    (hb : b ∈ blocks) (hl : ¬ numLines b < 2)
    (hv : validate_code_block b ≠ none) :
    validationNotes blocks ≠ [] := by
  obtain ⟨i, hi⟩ := exists_enum_of_mem blocks b hb
  obtain ⟨msg, hmsg⟩ := Option.ne_none_iff_exists'.mp hv
  have hmem : ("Code block " ++ toString (i + 1) ++ ": " ++ msg) ∈
      validationNotes blocks := by
    rw [validationNotes]
    refine List.mem_filterMap.mpr ⟨(i, b), hi, ?_⟩
    simp [hl, hmsg]
  exact List.ne_nil_of_mem hmem

/-- C9 fails as stated: a single-line R block containing the deny-listed
`system(` call is skipped by the "very simple block" filter, so nothing is
flagged and no Validation Notes section appears. -/
theorem C9_counterexample :
    extractRBlocks "```r\nsystem(x)\n```" = ["system(x)"] ∧
    (validate_code_block "system(x)").isSome ∧
    validate_workflow "```r\nsystem(x)\n```" = "```r\nsystem(x)\n```" :=
  ⟨by decide, by decide, by decide⟩

/-- C9 amended: validation never alters the answer — the validated response
is the input with an (optional) appended section; every embedded R block of
at least 2 stripped lines containing a deny-listed operation draws a note
(the uncommon-package advisory may supply the note's text when it fires
first), and the response then carries an appended Validation Notes section.
Single-line blocks are skipped unchecked. -/
theorem C9_validate_amended (resp b : String)
    (hb : b ∈ extractRBlocks resp) (hl : 2 ≤ numLines b)
    (hd : strContains "system(" (pyLower b) = true ∨
      strContains "unlink(" (pyLower b) = true ∨
      strContains "file.remove(" (pyLower b) = true) :
    (∃ t, validate_workflow resp = resp ++ t) ∧
    validate_code_block b ≠ none ∧
    validate_workflow resp ≠ resp := by
  have hvb := validate_code_block_ne_none b hd
  have hnotes : validationNotes (extractRBlocks resp) ≠ [] :=
    validationNotes_ne_nil _ b hb (by omega) hvb
  refine ⟨?_, hvb, ?_⟩
  · rw [validate_workflow, if_neg (by simpa using hnotes)]
    exact ⟨_, by rw [String.append_assoc]⟩
  · rw [validate_workflow, if_neg (by simpa using hnotes)]
    intro hcontra
    have hlen := congrArg String.length hcontra
    rw [String.length_append, String.length_append] at hlen
    have h24 : ("\n\n**Validation Notes:**\n" : String).length = 24 := rfl
    rw [h24] at hlen
    omega

theorem C9_witness :
    (∃ t, validate_workflow "```r\nx <- 1\nsystem(a)\n```" =
      "```r\nx <- 1\nsystem(a)\n```" ++ t) ∧
    validate_code_block "x <- 1\nsystem(a)" ≠ none ∧
    validate_workflow "```r\nx <- 1\nsystem(a)\n```" ≠
      "```r\nx <- 1\nsystem(a)\n```" :=
  C9_validate_amended "```r\nx <- 1\nsystem(a)\n```" "x <- 1\nsystem(a)"
    (by decide) (by decide) (Or.inl (by decide))

/-! ### C1 and C3: fusion correctness -/

/-- A score-preserving partial map keeps descending sortedness. -/
theorem filterMap_score_pairwise {α β : Type} (g : α × ℚ → Option (β × ℚ))
    (hg : ∀ p q, g p = some q → q.2 = p.2) (l : List (α × ℚ))
    (h : l.Pairwise (fun a b => b.2 ≤ a.2)) :
    (l.filterMap g).Pairwise (fun a b => b.2 ≤ a.2) := by
  induction l with
  | nil => simp
  | cons p rest ih =>
    cases h with
    | cons hp hrest =>
      rw [List.filterMap_cons]
      cases hd : g p with
      | none => exact ih hrest
      | some q =>
        refine List.Pairwise.cons ?_ (ih hrest)
        intro z hz
        rcases List.mem_filterMap.mp hz with ⟨p', hp', hz'⟩
        rw [hg p' z hz', hg p q hd]
        exact hp p' hp'

/-- Every score in the image of a score-preserving partial map is a source
score. -/
theorem filterMap_score_mem {α β : Type} (g : α × ℚ → Option (β × ℚ))
    (hg : ∀ p q, g p = some q → q.2 = p.2) (l : List (α × ℚ)) (z : β × ℚ)
    (hz : z ∈ l.filterMap g) : ∃ p ∈ l, z.2 = p.2 := by
  rcases List.mem_filterMap.mp hz with ⟨p, hp, hz'⟩
  exact ⟨p, hp, hg p z hz'⟩

theorem insertAsc_perm {α : Type} (x : α × ℚ) (l : List (α × ℚ)) :
    (insertAsc x l).Perm (x :: l) := by
  induction l with
  | nil => simp [insertAsc]
  | cons y ys ih =>
    rw [insertAsc]
    split
    · exact ((ih.cons y).trans (List.Perm.swap x y ys))
    · exact List.Perm.refl _

theorem sortAsc_perm {α : Type} (l : List (α × ℚ)) : (sortAsc l).Perm l := by
  induction l with
  | nil => exact List.Perm.refl _
  | cons x xs ih =>
    exact (insertAsc_perm x (sortAsc xs)).trans (ih.cons x)

theorem insertAsc_sorted {α : Type} (x : α × ℚ) (l : List (α × ℚ))
    (h : l.Pairwise (fun a b => a.2 ≤ b.2)) :
    (insertAsc x l).Pairwise (fun a b => a.2 ≤ b.2) := by
  induction l with
  | nil => simp [insertAsc]
  | cons y ys ih =>
    cases h with
    | cons hy hys =>
      rw [insertAsc]
      split
      · rename_i hle
        refine List.Pairwise.cons ?_ (ih hys)
        intro z hz
        rcases List.mem_cons.mp (((insertAsc_perm x ys).mem_iff).mp hz)
          with hz | hz
        · exact hz ▸ hle
        · exact hy z hz
      · rename_i hgt
        push_neg at hgt
        refine List.Pairwise.cons ?_ (List.Pairwise.cons hy hys)
        intro z hz
        rcases List.mem_cons.mp hz with hz | hz
        · exact hz ▸ le_of_lt hgt
        · exact le_trans (le_of_lt hgt) (hy z hz)

theorem sortAsc_sorted {α : Type} (l : List (α × ℚ)) :
    (sortAsc l).Pairwise (fun a b => a.2 ≤ b.2) := by
  induction l with
  | nil => exact List.Pairwise.nil
  | cons x xs ih => exact insertAsc_sorted x (sortAsc xs) ih

/-- The lexical pass returns candidates in descending score order. -/
theorem bm25_retrieve_sorted (f : List String → List ℚ) (query : String)
    (top_k : Nat) :
    (bm25_retrieve f query top_k).Pairwise (fun a b => b.2 ≤ a.2) := by
  rw [bm25_retrieve]
  refine List.Pairwise.sublist (List.take_sublist _ _) ?_
  rw [List.pairwise_reverse]
  exact (sortAsc_sorted _).imp (fun h => h)

/-- The lexical pass returns distinct corpus indices. -/
theorem bm25_retrieve_idx_nodup (f : List String → List ℚ) (query : String)
    (top_k : Nat) :
    ((bm25_retrieve f query top_k).map (·.1)).Nodup := by
  rw [bm25_retrieve]
  have h1 : (((sortAsc (f (pySplitWs query)).enum).reverse).map (·.1)).Nodup := by
    rw [List.map_reverse, List.nodup_reverse]
    have hperm : ((sortAsc (f (pySplitWs query)).enum).map (·.1)).Perm
        (((f (pySplitWs query)).enum).map (·.1)) := (sortAsc_perm _).map _
    refine hperm.nodup_iff.mpr ?_
    have he : ((f (pySplitWs query)).enum).map (·.1) =
        List.range (f (pySplitWs query)).length := List.enum_map_fst _
    rw [he]
    exact List.nodup_range _
  exact List.Nodup.sublist ((List.take_sublist _ _).map _) h1

theorem bm25_retrieve_length (f : List String → List ℚ) (query : String)
    (top_k : Nat) :
    (bm25_retrieve f query top_k).length =
      min top_k (f (pySplitWs query)).length := by
  rw [bm25_retrieve, List.length_take, List.length_reverse,
    (sortAsc_perm _).length_eq, List.enum_length]

/-- When the corpus fits inside the candidate budget, the lexical pass ranges
over every corpus index. -/
theorem bm25_retrieve_ids_complete (f : List String → List ℚ) (query : String)
    (top_k : Nat) (h : (f (pySplitWs query)).length ≤ top_k) :
    ((bm25_retrieve f query top_k).map (·.1)).Perm
      (List.range (f (pySplitWs query)).length) := by
  rw [bm25_retrieve]
  rw [List.take_of_length_le (by
    rw [List.length_reverse, (sortAsc_perm _).length_eq, List.enum_length]
    exact h)]
  have h1 : (((sortAsc (f (pySplitWs query)).enum).reverse).map (·.1)).Perm
      ((sortAsc (f (pySplitWs query)).enum).map (·.1)) := by
    rw [List.map_reverse]
    exact List.reverse_perm _
  refine h1.trans (((sortAsc_perm _).map _).trans ?_)
  have he : ((f (pySplitWs query)).enum).map (·.1) =
      List.range (f (pySplitWs query)).length := List.enum_map_fst _
  rw [he]

/-- Two corpus positions carrying the same id coincide when ids are distinct. -/
theorem get_id_inj (documents : List Document)
    (hdocs : (documents.map (fun d => d.id)).Nodup) (i j : Nat)
    (di dj : Document) (hi : documents.get? i = some di)
    (hj : documents.get? j = some dj) (hid : di.id = dj.id) : i = j := by
  have hmi : (documents.map (fun d => d.id)).get? i = some di.id := by
    rw [List.get?_map, hi]
    rfl
  have hmj : (documents.map (fun d => d.id)).get? j = some dj.id := by
    rw [List.get?_map, hj]
    rfl
  have hlen : i < (documents.map (fun d => d.id)).length := by
    rw [List.length_map]
    exact (List.get?_eq_some.mp hi).1
  exact List.get?_inj hlen hdocs (by rw [hmi, hmj, hid])

/-- Distinct indices over a distinct-id corpus give distinct id keys. -/
theorem filterMap_get_keys_nodup (documents : List Document)
    (q : List (Nat × ℚ)) (hq : (q.map (·.1)).Nodup)
    (hdocs : (documents.map (fun d => d.id)).Nodup) :
    ((q.filterMap (fun p => (documents.get? p.1).map
      (fun d => (d.id, p.2)))).map (·.1)).Nodup := by
  induction q with
  | nil => simp
  | cons p rest ih =>
    rw [List.map_cons] at hq
    rw [List.filterMap_cons]
    cases hget : documents.get? p.1 with
    | none => exact ih hq.of_cons
    | some d =>
      simp only [Option.map_some', List.map_cons]
      refine List.nodup_cons.mpr ⟨?_, ih hq.of_cons⟩
      intro hmem
      rcases List.mem_map.mp hmem with ⟨z, hz, hzid⟩
      rcases List.mem_filterMap.mp hz with ⟨p', hp', hmap⟩
      rcases Option.map_eq_some'.mp hmap with ⟨d', hd', hzd⟩
      have hid : d'.id = d.id := by rw [← hzid, ← hzd]
      have hidx : p'.1 = p.1 := get_id_inj documents hdocs _ _ _ _ hd' hget hid
      exact (List.nodup_cons.mp hq).1 (hidx ▸ List.mem_map.mpr ⟨p', hp', rfl⟩)

theorem lexNorm_keys_nodup (documents : List Document)
    (br : List (Nat × ℚ)) (hbr : (br.map (·.1)).Nodup)
    (hdocs : (documents.map (fun d => d.id)).Nodup) :
    ((lexNorm documents br).map (·.1)).Nodup := by
  rw [lexNorm]
  refine filterMap_get_keys_nodup documents _ ?_ hdocs
  rw [normalizePass_fst]
  exact hbr

theorem lexNorm_sorted (documents : List Document) (br : List (Nat × ℚ))
    (hbr : br.Pairwise (fun a b => b.2 ≤ a.2)) :
    (lexNorm documents br).Pairwise (fun a b => b.2 ≤ a.2) := by
  rw [lexNorm]
  refine filterMap_score_pairwise _ ?_ _ (normalizePass_sorted br hbr)
  intro p z hz
  rcases Option.map_eq_some'.mp hz with ⟨d, _, hzd⟩
  rw [← hzd]

theorem lexNorm_nonneg (documents : List Document) (br : List (Nat × ℚ))
    (hbr : ∀ p ∈ br, 0 ≤ p.2) :
    ∀ z ∈ lexNorm documents br, 0 ≤ z.2 := by
  intro z hz
  rw [lexNorm] at hz
  have hg : ∀ (p : Nat × ℚ) (q : String × ℚ),
      (documents.get? p.1).map (fun d => (d.id, p.2)) = some q → q.2 = p.2 := by
    intro p q hq
    rcases Option.map_eq_some'.mp hq with ⟨d, _, hzd⟩
    rw [← hzd]
  obtain ⟨p, hp, hsc⟩ := filterMap_score_mem _ hg _ z hz
  rw [hsc]
  exact normalizePass_nonneg br hbr p hp

/-- Every lexical key is a corpus id. -/
theorem lexNorm_keys_sub (documents : List Document) (br : List (Nat × ℚ)) :
    ∀ i ∈ (lexNorm documents br).map (·.1),
      i ∈ documents.map (fun d => d.id) := by
  intro i hi
  rcases List.mem_map.mp hi with ⟨z, hz, hzi⟩
  rw [lexNorm] at hz
  rcases List.mem_filterMap.mp hz with ⟨p, _, hmap⟩
  rcases Option.map_eq_some'.mp hmap with ⟨d, hd, hzd⟩
  have hdm : d ∈ documents := List.get?_mem hd
  rw [← hzi, ← hzd]
  exact List.mem_map.mpr ⟨d, hdm, rfl⟩

/-- When the corpus also appears fully in the lexical pass, every corpus id
is a lexical key. -/
theorem sub_lexNorm_keys (documents : List Document) (br : List (Nat × ℚ))
    (hcov : ∀ j < documents.length, j ∈ br.map (·.1)) :
    ∀ i ∈ documents.map (fun d => d.id),
      i ∈ (lexNorm documents br).map (·.1) := by
  intro i hi
  rcases List.mem_map.mp hi with ⟨d, hd, hdi⟩
  rcases List.mem_iff_get.mp hd with ⟨⟨j, hj⟩, hget⟩
  have hjm : j ∈ br.map (·.1) := hcov j hj
  have hjn : j ∈ (normalizePass br).map (·.1) := by
    rw [normalizePass_fst]
    exact hjm
  rcases List.mem_map.mp hjn with ⟨p, hp, hpj⟩
  rw [lexNorm]
  refine List.mem_map.mpr ⟨(d.id, p.2), ?_, hdi⟩
  refine List.mem_filterMap.mpr ⟨p, hp, ?_⟩
  rw [hpj, List.get?_eq_get hj, hget]
  rfl

theorem pairwise_const_zero (U : List String) :
    (U.map (fun i => (i, (0:ℚ)))).Pairwise (fun a b => b.2 ≤ a.2) := by
  induction U with
  | nil => simp
  | cons u us ih =>
    rw [List.map_cons]
    refine List.Pairwise.cons ?_ ih
    intro z hz
    rcases List.mem_map.mp hz with ⟨i, _, rfl⟩
    exact le_refl _

/-- At weight 1 the fused ranking is the normalized lexical list followed by
zero-scored vector-only ids; truncated to `top_k`, the lexical prefix. -/
theorem fused_weight_one (L V : List (String × ℚ)) (top_k : Nat)
    (hLn : (L.map (·.1)).Nodup)
    (hLs : L.Pairwise (fun a b => b.2 ≤ a.2))
    (hLnn : ∀ z ∈ L, 0 ≤ z.2)
    (hcov : top_k ≤ L.length ∨ ∀ i ∈ V.map (·.1), i ∈ L.map (·.1)) :
    (sortDesc ((unionIds (L.map (·.1)) (V.map (·.1))).map
      (fun i => (i, specCombined L V 1 i)))).take top_k = L.take top_k := by
  have hc1 : ∀ i, specCombined L V 1 i = (alookup L i).getD 0 := by
    intro i
    rw [specCombined]
    ring
  rw [unionIds, List.map_append]
  have hA : (L.map (·.1)).map (fun i => (i, specCombined L V 1 i)) = L := by
    calc (L.map (·.1)).map (fun i => (i, specCombined L V 1 i))
        = (L.map (·.1)).map (fun i => (i, (alookup L i).getD 0)) :=
          List.map_congr_left (fun i _ => by rw [hc1])
      _ = L := alookup_map_recover L 0 hLn
  have hB : ((V.map (·.1)).filter (fun v => !((L.map (·.1)).contains v))).map
      (fun i => (i, specCombined L V 1 i)) =
      ((V.map (·.1)).filter (fun v => !((L.map (·.1)).contains v))).map
      (fun i => (i, (0:ℚ))) := by
    refine List.map_congr_left ?_
    intro i hi
    rcases List.mem_filter.mp hi with ⟨_, hcond⟩
    have hnot : i ∉ L.map (·.1) := by simpa using hcond
    rw [hc1, alookup_eq_none _ _ hnot]
    rfl
  rw [hA, hB]
  have hsplit : sortDesc (L ++ ((V.map (·.1)).filter
      (fun v => !((L.map (·.1)).contains v))).map (fun i => (i, (0:ℚ)))) =
      L ++ ((V.map (·.1)).filter
      (fun v => !((L.map (·.1)).contains v))).map (fun i => (i, (0:ℚ))) := by
    rw [sortDesc_append]
    · rw [sortDesc_eq_self L hLs, sortDesc_eq_self _ (pairwise_const_zero _)]
    · intro a ha b hb
      rcases List.mem_map.mp hb with ⟨i, _, rfl⟩
      exact hLnn a ha
  rw [hsplit]
  rcases hcov with hk | hsub
  · rw [List.take_append_eq_append_take, Nat.sub_eq_zero_of_le hk,
      List.take_zero, List.append_nil]
  · have hnil : (V.map (·.1)).filter
        (fun v => !((L.map (·.1)).contains v)) = [] := by
      rw [List.filter_eq_nil_iff]
      intro i hi
      simpa using hsub i hi
    rw [hnil, List.map_nil, List.append_nil]

theorem pairwise_ge_of_all_zero {α : Type} (l : List (α × ℚ))
    (h : ∀ z ∈ l, z.2 = 0) : l.Pairwise (fun a b => b.2 ≤ a.2) := by
  induction l with
  | nil => simp
  | cons x xs ih =>
    refine List.Pairwise.cons ?_ (ih (fun z hz => h z (List.mem_cons_of_mem _ hz)))
    intro z hz
    rw [h z (List.mem_cons_of_mem _ hz), h x (List.mem_cons_self x xs)]

/-- At weight 0 the fused ranking truncates to the normalized vector list. -/
theorem fused_weight_zero (L V : List (String × ℚ)) (top_k : Nat)
    (hLn : (L.map (·.1)).Nodup)
    (hVn : (V.map (·.1)).Nodup)
    (hVs : V.Pairwise (fun a b => b.2 < a.2))
    (hVp : ∀ z ∈ V, 0 < z.2)
    (hcov : top_k ≤ V.length ∨ ∀ i ∈ L.map (·.1), i ∈ V.map (·.1)) :
    (sortDesc ((unionIds (L.map (·.1)) (V.map (·.1))).map
      (fun i => (i, specCombined L V 0 i)))).take top_k = V.take top_k := by
  have hc0 : ∀ i, specCombined L V 0 i = (alookup V i).getD 0 := by
    intro i
    rw [specCombined]
    ring
  have hvpos : ∀ i ∈ V.map (·.1), 0 < (alookup V i).getD 0 := by
    intro i hi
    obtain ⟨v, hv⟩ := Option.isSome_iff_exists.mp (alookup_isSome V i hi)
    rw [hv]
    exact hVp (i, v) (alookup_mem V i v hv)
  have hvzero : ∀ i, i ∉ V.map (·.1) → (alookup V i).getD 0 = 0 := by
    intro i hi
    rw [alookup_eq_none V i hi]
    rfl
  have hg : ∀ i, (fun i => (i, specCombined L V 0 i)) i =
      (fun i => (i, (alookup V i).getD 0)) i := by
    intro i
    simp only [hc0]
  rw [List.map_congr_left (fun i _ => hg i)]
  have hfilter_pos : ((unionIds (L.map (·.1)) (V.map (·.1))).map
      (fun i => (i, (alookup V i).getD 0))).filter (fun p => decide (0 < p.2)) =
      ((unionIds (L.map (·.1)) (V.map (·.1))).filter
        (fun i => (V.map (·.1)).contains i)).map
        (fun i => (i, (alookup V i).getD 0)) := by
    rw [List.filter_map]
    refine congrArg _ ?_
    refine List.filter_congr ?_
    intro i _
    by_cases hm : i ∈ V.map (·.1)
    · simp [Function.comp, hvpos i hm, hm]
    · simp [Function.comp, hvzero i hm, hm]
  have hfilter_zero : ((unionIds (L.map (·.1)) (V.map (·.1))).map
      (fun i => (i, (alookup V i).getD 0))).filter
        (fun p => !(decide (0 < p.2))) =
      ((unionIds (L.map (·.1)) (V.map (·.1))).filter
        (fun i => !((V.map (·.1)).contains i))).map
        (fun i => (i, (alookup V i).getD 0)) := by
    rw [List.filter_map]
    refine congrArg _ ?_
    refine List.filter_congr ?_
    intro i _
    by_cases hm : i ∈ V.map (·.1)
    · simp [Function.comp, hvpos i hm, hm]
    · simp [Function.comp, hvzero i hm, hm]
  have hUposPerm : ((unionIds (L.map (·.1)) (V.map (·.1))).filter
      (fun i => (V.map (·.1)).contains i)).Perm (V.map (·.1)) := by
    rw [unionIds, List.filter_append]
    have h2 : ((V.map (·.1)).filter (fun v => !((L.map (·.1)).contains v))).filter
        (fun i => (V.map (·.1)).contains i) =
        (V.map (·.1)).filter (fun v => !((L.map (·.1)).contains v)) := by
      rw [List.filter_eq_self]
      intro a ha
      have hmem : a ∈ V.map (·.1) := (List.mem_filter.mp ha).1
      simpa using hmem
    rw [h2]
    have h3 : ((L.map (·.1)).filter (fun i => (V.map (·.1)).contains i)).Perm
        ((V.map (·.1)).filter (fun i => (L.map (·.1)).contains i)) := by
      refine (List.perm_ext_iff_of_nodup (hLn.filter _) (hVn.filter _)).mpr ?_
      intro a
      constructor
      · intro hmem
        rcases List.mem_filter.mp hmem with ⟨h1, h2⟩
        refine List.mem_filter.mpr ⟨by simpa using h2, by simpa using h1⟩
      · intro hmem
        rcases List.mem_filter.mp hmem with ⟨h1, h2⟩
        refine List.mem_filter.mpr ⟨by simpa using h2, by simpa using h1⟩
    refine (h3.append_right _).trans ?_
    exact List.filter_append_perm _ _
  -- the fused list, sorted, splits into V then zeros
  have hM_nonneg : ∀ z ∈ ((unionIds (L.map (·.1)) (V.map (·.1))).map
      (fun i => (i, (alookup V i).getD 0))), 0 ≤ z.2 := by
    intro z hz
    rcases List.mem_map.mp hz with ⟨i, _, rfl⟩
    by_cases hm : i ∈ V.map (·.1)
    · exact le_of_lt (hvpos i hm)
    · rw [hvzero i hm]
  have hsplit := sorted_nonneg_split
    (sortDesc ((unionIds (L.map (·.1)) (V.map (·.1))).map
      (fun i => (i, (alookup V i).getD 0))))
    (sortDesc_sorted _)
    (fun z hz => hM_nonneg z ((sortDesc_perm _).subset hz))
  rw [sortDesc_filter, sortDesc_filter, hfilter_pos, hfilter_zero] at hsplit
  have hVperm : (((unionIds (L.map (·.1)) (V.map (·.1))).filter
      (fun i => (V.map (·.1)).contains i)).map
      (fun i => (i, (alookup V i).getD 0))).Perm V := by
    refine (hUposPerm.map _).trans ?_
    rw [alookup_map_recover V 0 hVn]
  have hVscores : (V.map (·.2)).Nodup :=
    List.pairwise_map.mpr (hVs.imp (fun h => ne_of_gt h))
  have hsortpos : sortDesc (((unionIds (L.map (·.1)) (V.map (·.1))).filter
      (fun i => (V.map (·.1)).contains i)).map
      (fun i => (i, (alookup V i).getD 0))) = V := by
    refine eq_of_sorted_strict_perm _ _ ((sortDesc_perm _).trans hVperm) ?_ hVs
    refine strict_of_sorted_nodup _ (sortDesc_sorted _) ?_
    have hperm2 : ((sortDesc (((unionIds (L.map (·.1)) (V.map (·.1))).filter
        (fun i => (V.map (·.1)).contains i)).map
        (fun i => (i, (alookup V i).getD 0)))).map (·.2)).Perm (V.map (·.2)) :=
      ((sortDesc_perm _).trans hVperm).map _
    exact hperm2.nodup_iff.mpr hVscores
  have hzeros : ∀ z ∈ (((unionIds (L.map (·.1)) (V.map (·.1))).filter
      (fun i => !((V.map (·.1)).contains i))).map
      (fun i => (i, (alookup V i).getD 0))), z.2 = 0 := by
    intro z hz
    rcases List.mem_map.mp hz with ⟨i, hi, rfl⟩
    rcases List.mem_filter.mp hi with ⟨_, hcond⟩
    exact hvzero i (by simpa using hcond)
  have hsortzero : sortDesc (((unionIds (L.map (·.1)) (V.map (·.1))).filter
      (fun i => !((V.map (·.1)).contains i))).map
      (fun i => (i, (alookup V i).getD 0))) =
      (((unionIds (L.map (·.1)) (V.map (·.1))).filter
      (fun i => !((V.map (·.1)).contains i))).map
      (fun i => (i, (alookup V i).getD 0))) :=
    sortDesc_eq_self _ (pairwise_ge_of_all_zero _ hzeros)
  rw [hsortpos, hsortzero] at hsplit
  rw [hsplit]
  rcases hcov with hk | hsub
  · rw [List.take_append_eq_append_take, Nat.sub_eq_zero_of_le hk,
      List.take_zero, List.append_nil]
  · have hnil : (unionIds (L.map (·.1)) (V.map (·.1))).filter
        (fun i => !((V.map (·.1)).contains i)) = [] := by
      rw [List.filter_eq_nil_iff]
      intro i hi
      rw [unionIds] at hi
      rcases List.mem_append.mp hi with hi | hi
      · simpa using hsub i hi
      · simpa using (List.mem_filter.mp hi).1
    rw [hnil, List.map_nil, List.append_nil]

theorem mem_enumFrom_bound {α : Type} (l : List α) (n : Nat) (p : Nat × α)
    (h : p ∈ l.enumFrom n) : p.1 < n + l.length := by
  induction l generalizing n with
  | nil => simp [List.enumFrom] at h
  | cons x xs ih =>
    rw [List.enumFrom] at h
    rcases List.mem_cons.mp h with rfl | h
    · simp
    · have := ih (n + 1) h
      simp only [List.length_cons]
      omega

theorem mem_enum_bound {α : Type} (l : List α) (p : Nat × α)
    (h : p ∈ l.enum) : p.1 < l.length := by
  have := mem_enumFrom_bound l 0 p h
  omega

/-- Every index the lexical pass returns is a position in the score array. -/
theorem bm25_retrieve_idx_lt (f : List String → List ℚ) (query : String)
    (top_k : Nat) (p : Nat × ℚ) (hp : p ∈ bm25_retrieve f query top_k) :
    p.1 < (f (pySplitWs query)).length := by
  rw [bm25_retrieve] at hp
  have h1 : p ∈ (sortAsc (f (pySplitWs query)).enum).reverse :=
    (List.take_sublist _ _).mem hp
  rw [List.mem_reverse] at h1
  have h2 : p ∈ (f (pySplitWs query)).enum := (sortAsc_perm _).subset h1
  exact mem_enum_bound _ p h2

theorem filterMap_length_of_valid (documents : List Document)
    (q : List (Nat × ℚ)) (h : ∀ p ∈ q, p.1 < documents.length) :
    (q.filterMap (fun p => (documents.get? p.1).map
      (fun d => (d.id, p.2)))).length = q.length := by
  induction q with
  | nil => rfl
  | cons p rest ih =>
    rw [List.filterMap_cons]
    have hd : documents.get? p.1 =
        some (documents.get ⟨p.1, h p (List.mem_cons_self p rest)⟩) :=
      List.get?_eq_get (h p (List.mem_cons_self p rest))
    rw [hd]
    simp only [Option.map_some', List.length_cons]
    rw [ih (fun z hz => h z (List.mem_cons_of_mem _ hz))]

theorem lexNorm_length_of_valid (documents : List Document)
    (br : List (Nat × ℚ)) (h : ∀ p ∈ br, p.1 < documents.length) :
    (lexNorm documents br).length = br.length := by
  rw [lexNorm, filterMap_length_of_valid, normalizePass_length]
  intro p hp
  have : p.1 ∈ (normalizePass br).map (·.1) := List.mem_map.mpr ⟨p, hp, rfl⟩
  rw [normalizePass_fst] at this
  rcases List.mem_map.mp this with ⟨z, hz, hzp⟩
  exact hzp ▸ h z hz

theorem dense_retrieve_fst (chroma_query : String → Nat → List (String × ℚ))
    (query : String) (top_k : Nat) :
    (dense_retrieve chroma_query query top_k).map (·.1) =
      (chroma_query query top_k).map (·.1) := by
  rw [dense_retrieve, List.map_map]
  rfl

theorem dense_retrieve_length (chroma_query : String → Nat → List (String × ℚ))
    (query : String) (top_k : Nat) :
    (dense_retrieve chroma_query query top_k).length =
      (chroma_query query top_k).length := by
  rw [dense_retrieve, List.length_map]

/-- Similarities `1/(1+d)` are positive for nonnegative distances. -/
theorem dense_retrieve_pos (chroma_query : String → Nat → List (String × ℚ))
    (query : String) (top_k : Nat)
    (hd : ∀ p ∈ chroma_query query top_k, 0 ≤ p.2) :
    ∀ z ∈ dense_retrieve chroma_query query top_k, 0 < z.2 := by
  intro z hz
  rw [dense_retrieve] at hz
  rcases List.mem_map.mp hz with ⟨p, hp, rfl⟩
  have h1 : (0:ℚ) < 1 + p.2 := by
    have := hd p hp
    linarith
  exact div_pos one_pos h1

/-- Strictly increasing distances give strictly decreasing similarities. -/
theorem dense_retrieve_strict (chroma_query : String → Nat → List (String × ℚ))
    (query : String) (top_k : Nat)
    (hd : ∀ p ∈ chroma_query query top_k, 0 ≤ p.2)
    (hs : (chroma_query query top_k).Pairwise (fun a b => a.2 < b.2)) :
    (dense_retrieve chroma_query query top_k).Pairwise
      (fun a b => b.2 < a.2) := by
  rw [dense_retrieve, List.pairwise_map]
  refine List.Pairwise.imp_of_mem ?_ hs
  intro a b ha hb hab
  have h1 : (0:ℚ) < 1 + a.2 := by
    have := hd a ha
    linarith
  have h2 : (1:ℚ) + a.2 < 1 + b.2 := by linarith
  exact one_div_lt_one_div_of_lt h1 h2

/-- Two duplicate-free lists with the same length, one contained in the
other, have the same members. -/
theorem mem_of_nodup_len_le (l1 l2 : List String) (h1 : l1.Nodup)
    (h2 : l2.Nodup) (hsub : ∀ a ∈ l1, a ∈ l2) (hlen : l2.length ≤ l1.length) :
    ∀ a ∈ l2, a ∈ l1 := by
  intro a ha
  have hfs : l1.toFinset ⊆ l2.toFinset := fun x hx =>
    List.mem_toFinset.mpr (hsub x (List.mem_toFinset.mp hx))
  have hcard : l2.toFinset.card ≤ l1.toFinset.card := by
    rw [List.toFinset_card_of_nodup h1, List.toFinset_card_of_nodup h2]
    exact hlen
  have heq := Finset.eq_of_subset_of_card_le hfs hcard
  exact List.mem_toFinset.mp (heq ▸ List.mem_toFinset.mpr ha)

theorem hybrid_weight_one (documents : List Document) (br : List (Nat × ℚ))
    (dr : List (String × ℚ)) (top_k : Nat)
    (hdocs : (documents.map (fun d => d.id)).Nodup)
    (hbrN : (br.map (·.1)).Nodup)
    (hbrS : br.Pairwise (fun a b => b.2 ≤ a.2))
    (hbrNN : ∀ p ∈ br, 0 ≤ p.2)
    (hdrN : (dr.map (·.1)).Nodup)
    (hcov : top_k ≤ (lexNorm documents br).length ∨
      ∀ i ∈ (vecNorm dr).map (·.1), i ∈ (lexNorm documents br).map (·.1)) :
    hybrid_rerank documents br dr top_k 1 =
      pure_lexical_results documents br top_k := by
  have hL := lexNorm_keys_nodup documents br hbrN hdocs
  rw [hybrid_eq_spec documents br dr top_k 1 hL hdrN]
  simp only [specFusion, pure_lexical_results]
  rw [fused_weight_one (lexNorm documents br) (vecNorm dr) top_k hL
    (lexNorm_sorted documents br hbrS) (lexNorm_nonneg documents br hbrNN) hcov]

theorem hybrid_weight_zero (documents : List Document) (br : List (Nat × ℚ))
    (dr : List (String × ℚ)) (top_k : Nat)
    (hdocs : (documents.map (fun d => d.id)).Nodup)
    (hbrN : (br.map (·.1)).Nodup)
    (hdrN : (dr.map (·.1)).Nodup)
    (hdrS : dr.Pairwise (fun a b => b.2 < a.2))
    (hdrP : ∀ p ∈ dr, 0 < p.2)
    (hcov : top_k ≤ (vecNorm dr).length ∨
      ∀ i ∈ (lexNorm documents br).map (·.1), i ∈ (vecNorm dr).map (·.1)) :
    hybrid_rerank documents br dr top_k 0 =
      pure_vector_results documents dr top_k := by
  have hL := lexNorm_keys_nodup documents br hbrN hdocs
  rw [hybrid_eq_spec documents br dr top_k 0 hL hdrN]
  simp only [specFusion, pure_vector_results]
  have hVn : ((vecNorm dr).map (·.1)).Nodup := by
    rw [vecNorm, normalizePass_fst]
    exact hdrN
  rw [fused_weight_zero (lexNorm documents br) (vecNorm dr) top_k hL hVn
    (normalizePass_strict dr hdrS hdrP) (normalizePass_pos dr hdrP) hcov]

/-- C1: on an initialized store whose corpus ids are distinct and whose
vector index returns distinct ids, `retrieve` is exactly the specification's
fusion pipeline — each id in the union of the two passes scores
`bm25Weight·lexNorm + (1−bm25Weight)·vecNorm` with a missing pass score taken
as 0 — and the returned pairs are the `topK` of this fusion sorted by
descending combined score. -/
theorem C1_fusion_formula (st : HybridRetriever) (f : List String → List ℚ)
    (query : String) (top_k : Nat) (w : ℚ)
    (hb : st.bm25 = some f) (he : st.embedding_model = some ())
    (hdocs : (st.documents.map (fun d => d.id)).Nodup)
    (hcN : ((st.chroma_query query (top_k * 2)).map (·.1)).Nodup) :
    retrieve st query top_k w =
      specFusion st.documents (bm25_retrieve f query (top_k * 2))
        (dense_retrieve st.chroma_query query (top_k * 2)) top_k w ∧
    (retrieve st query top_k w).Pairwise (fun a b => b.2 ≤ a.2) := by
  rw [retrieve_init st f hb he query top_k w]
  have hL := lexNorm_keys_nodup st.documents _
    (bm25_retrieve_idx_nodup f query (top_k * 2)) hdocs
  have hV : ((dense_retrieve st.chroma_query query (top_k * 2)).map
      (·.1)).Nodup := by
    rw [dense_retrieve_fst]
    exact hcN
  constructor
  · exact hybrid_eq_spec _ _ _ _ _ hL hV
  · rw [hybrid_rerank]
    refine filterMap_score_pairwise _ ?_ _
      (List.Pairwise.sublist (List.take_sublist _ _) (sortDesc_sorted _))
    intro p q hq
    rcases Option.map_eq_some'.mp hq with ⟨d, _, hzd⟩
    rw [← hzd]

theorem C1_witness :
    retrieve ⟨[⟨"ca", [], "a"⟩, ⟨"cb", [], "b"⟩], some (fun _ => [2, 1]),
        some (), fun _ _ => [("b", 1)]⟩ "q" 2 (3/10) =
      specFusion [⟨"ca", [], "a"⟩, ⟨"cb", [], "b"⟩]
        (bm25_retrieve (fun _ => [2, 1]) "q" (2 * 2))
        (dense_retrieve (fun _ _ => [("b", 1)]) "q" (2 * 2)) 2 (3/10) ∧
    (retrieve ⟨[⟨"ca", [], "a"⟩, ⟨"cb", [], "b"⟩], some (fun _ => [2, 1]),
        some (), fun _ _ => [("b", 1)]⟩ "q" 2 (3/10)).Pairwise
      (fun a b => b.2 ≤ a.2) :=
  C1_fusion_formula
    ⟨[⟨"ca", [], "a"⟩, ⟨"cb", [], "b"⟩], some (fun _ => [2, 1]),
      some (), fun _ _ => [("b", 1)]⟩
    (fun _ => [2, 1]) "q" 2 (3/10) rfl rfl (by decide) (by decide)

theorem mem_enumFrom_snd {α : Type} (l : List α) (n : Nat) (p : Nat × α)
    (h : p ∈ l.enumFrom n) : p.2 ∈ l := by
  induction l generalizing n with
  | nil => simp [List.enumFrom] at h
  | cons x xs ih =>
    rw [List.enumFrom] at h
    rcases List.mem_cons.mp h with rfl | h
    · simp
    · exact List.mem_cons_of_mem _ (ih (n + 1) h)

/-- C3: on an initialized store with distinct corpus ids, one BM25 score per
corpus document, nonnegative BM25 scores, and a vector index that covers the
corpus and ranks by strictly increasing nonnegative distances, `retrieve`
with `bm25Weight = 1` returns exactly the pure-lexical results and `retrieve`
with `bm25Weight = 0` exactly the pure-vector results (same ranking, same
normalized scores). -/
theorem C3_weight_extremes (st : HybridRetriever) (f : List String → List ℚ)
    (query : String) (top_k : Nat)
    (hb : st.bm25 = some f) (he : st.embedding_model = some ())
    (hdocs : (st.documents.map (fun d => d.id)).Nodup)
    (hflen : (f (pySplitWs query)).length = st.documents.length)
    (hfnn : ∀ s ∈ f (pySplitWs query), 0 ≤ s)
    (hcN : ((st.chroma_query query (top_k * 2)).map (·.1)).Nodup)
    (hcSub : ∀ p ∈ st.chroma_query query (top_k * 2),
      p.1 ∈ st.documents.map (fun d => d.id))
    (hcLen : (st.chroma_query query (top_k * 2)).length =
      min (top_k * 2) st.documents.length)
    (hcNN : ∀ p ∈ st.chroma_query query (top_k * 2), 0 ≤ p.2)
    (hcStrict : (st.chroma_query query (top_k * 2)).Pairwise
      (fun a b => a.2 < b.2)) :
    retrieve st query top_k 1 =
      pure_lexical_results st.documents
        (bm25_retrieve f query (top_k * 2)) top_k ∧
    retrieve st query top_k 0 =
      pure_vector_results st.documents
        (dense_retrieve st.chroma_query query (top_k * 2)) top_k := by
  rw [retrieve_init st f hb he query top_k 1,
     retrieve_init st f hb he query top_k 0]
  have hbrNN : ∀ p ∈ bm25_retrieve f query (top_k * 2), 0 ≤ p.2 := by
    intro p hp
    refine hfnn p.2 ?_
    rw [bm25_retrieve] at hp
    have h1 : p ∈ (sortAsc (f (pySplitWs query)).enum).reverse :=
      (List.take_sublist _ _).mem hp
    rw [List.mem_reverse] at h1
    exact mem_enumFrom_snd _ 0 p ((sortAsc_perm _).subset h1)
  have hbrS := bm25_retrieve_sorted f query (top_k * 2)
  have hbrN := bm25_retrieve_idx_nodup f query (top_k * 2)
  have hbrValid : ∀ p ∈ bm25_retrieve f query (top_k * 2),
      p.1 < st.documents.length := by
    intro p hp
    rw [← hflen]
    exact bm25_retrieve_idx_lt f query _ p hp
  have hdrN : ((dense_retrieve st.chroma_query query (top_k * 2)).map
      (·.1)).Nodup := by
    rw [dense_retrieve_fst]
    exact hcN
  have hdrS := dense_retrieve_strict st.chroma_query query (top_k * 2)
    hcNN hcStrict
  have hdrP := dense_retrieve_pos st.chroma_query query (top_k * 2) hcNN
  have hLlen : (lexNorm st.documents
      (bm25_retrieve f query (top_k * 2))).length =
      min (top_k * 2) st.documents.length := by
    rw [lexNorm_length_of_valid _ _ hbrValid, bm25_retrieve_length, hflen]
  have hVlen : (vecNorm (dense_retrieve st.chroma_query query
      (top_k * 2))).length = min (top_k * 2) st.documents.length := by
    rw [vecNorm, normalizePass_length, dense_retrieve_length, hcLen]
  by_cases hNk : top_k ≤ st.documents.length
  · have hcov1 : top_k ≤ (lexNorm st.documents
        (bm25_retrieve f query (top_k * 2))).length := by
      rw [hLlen]
      exact Nat.le_min.mpr ⟨by omega, hNk⟩
    have hcov0 : top_k ≤ (vecNorm (dense_retrieve st.chroma_query query
        (top_k * 2))).length := by
      rw [hVlen]
      exact Nat.le_min.mpr ⟨by omega, hNk⟩
    exact ⟨hybrid_weight_one _ _ _ _ hdocs hbrN hbrS hbrNN hdrN (Or.inl hcov1),
      hybrid_weight_zero _ _ _ _ hdocs hbrN hdrN hdrS hdrP (Or.inl hcov0)⟩
  · push_neg at hNk
    have hcomplete : ∀ j < st.documents.length,
        j ∈ (bm25_retrieve f query (top_k * 2)).map (·.1) := by
      intro j hj
      have hperm := bm25_retrieve_ids_complete f query (top_k * 2)
        (by rw [hflen]; omega)
      refine hperm.mem_iff.mpr ?_
      rw [hflen]
      exact List.mem_range.mpr hj
    have hcorpusL := sub_lexNorm_keys st.documents
      (bm25_retrieve f query (top_k * 2)) hcomplete
    have hVsubC : ∀ i ∈ (vecNorm (dense_retrieve st.chroma_query query
        (top_k * 2))).map (·.1), i ∈ st.documents.map (fun d => d.id) := by
      rw [vecNorm, normalizePass_fst, dense_retrieve_fst]
      intro i hi
      rcases List.mem_map.mp hi with ⟨p, hp, rfl⟩
      exact hcSub p hp
    have hVkeysN : ((vecNorm (dense_retrieve st.chroma_query query
        (top_k * 2))).map (·.1)).Nodup := by
      rw [vecNorm, normalizePass_fst]
      exact hdrN
    have hVkeys_len : (st.documents.map (fun d => d.id)).length ≤
        ((vecNorm (dense_retrieve st.chroma_query query
          (top_k * 2))).map (·.1)).length := by
      rw [List.length_map, List.length_map, hVlen]
      have : min (top_k * 2) st.documents.length = st.documents.length :=
        Nat.min_eq_right (by omega)
      omega
    have hCsubV := mem_of_nodup_len_le _ _ hVkeysN hdocs hVsubC hVkeys_len
    have hcov1 : ∀ i ∈ (vecNorm (dense_retrieve st.chroma_query query
        (top_k * 2))).map (·.1),
        i ∈ (lexNorm st.documents (bm25_retrieve f query (top_k * 2))).map
          (·.1) := fun i hi => hcorpusL i (hVsubC i hi)
    have hcov0 : ∀ i ∈ (lexNorm st.documents
        (bm25_retrieve f query (top_k * 2))).map (·.1),
        i ∈ (vecNorm (dense_retrieve st.chroma_query query
          (top_k * 2))).map (·.1) :=
      fun i hi => hCsubV i (lexNorm_keys_sub st.documents _ i hi)
    exact ⟨hybrid_weight_one _ _ _ _ hdocs hbrN hbrS hbrNN hdrN (Or.inr hcov1),
      hybrid_weight_zero _ _ _ _ hdocs hbrN hdrN hdrS hdrP (Or.inr hcov0)⟩

theorem C3_witness :
    retrieve ⟨[⟨"ca", [], "a"⟩, ⟨"cb", [], "b"⟩], some (fun _ => [2, 1]),
        some (), fun _ _ => [("a", 0), ("b", 1)]⟩ "q" 1 1 =
      pure_lexical_results [⟨"ca", [], "a"⟩, ⟨"cb", [], "b"⟩]
        (bm25_retrieve (fun _ => [2, 1]) "q" (1 * 2)) 1 ∧
    retrieve ⟨[⟨"ca", [], "a"⟩, ⟨"cb", [], "b"⟩], some (fun _ => [2, 1]),
        some (), fun _ _ => [("a", 0), ("b", 1)]⟩ "q" 1 0 =
      pure_vector_results [⟨"ca", [], "a"⟩, ⟨"cb", [], "b"⟩]
        (dense_retrieve (fun _ _ => [("a", 0), ("b", 1)]) "q" (1 * 2)) 1 :=
  C3_weight_extremes
    ⟨[⟨"ca", [], "a"⟩, ⟨"cb", [], "b"⟩], some (fun _ => [2, 1]),
      some (), fun _ _ => [("a", 0), ("b", 1)]⟩
    (fun _ => [2, 1]) "q" 1 rfl rfl (by decide) rfl (by decide) (by decide)
    (by decide) (by decide) (by decide) (by decide)
